import Mathlib

/-!
BinSerialize: a shallow embedding of the binary codec.

The embedding follows `types.h`, `student.h` and `MyClass.h` of the 64-bit
build (`ALIGN_BY = sizeof(void*) = 8`, little-endian object representation,
`sizeof(int) = 4`, `sizeof(size_t) = 8`, `sizeof(AttendanceType) = 4`,
`sizeof(bool) = 1`, `sizeof(double) = 8`, `STR_CHAR = char`).

Conventions.
* A byte span is a `List Byte`; a pointer into the span is a `Nat` offset from
  the pointer the function was given (addresses are assumed not to wrap around
  the 64-bit address space).
* `size_t` arithmetic is done modulo `2 ^ 64`; `intptr_t` casts are explicit.
* A `double` is represented by its IEEE-754 binary64 bit pattern.
* Reads and writes outside the span are not silently allowed: `load` and
  `store` return `none`, which the codec models turn into `Stop.outOfSpan`.
* `assert` is the release-build no-op; `__fastfail` is `Stop.fastfail`.
* A `bool` field holds a `Bool`: the check `bSuspended != true && bSuspended != false`
  is a condition on that value.
-/

namespace BinSerialize

/-- A `uint8_t`. -/
abbrev Byte := Fin 256

/-- Alignment in bytes: `sizeof(void*)` on the 64-bit build. -/
def ALIGN_BY : Nat := 8

def MIN_ALLOWED_AGE : Int := 10
def MAX_ALLOWED_AGE : Int := 200
def MIN_ALLOWED_YEAR : Int := 1000
def MAX_ALLOWED_YEAR : Int := 2100
def MAX_NAME_LEN_1 : Nat := 1024
def MAX_NAME_LEN_2 : Nat := 256

abbrev sizeof_int : Nat := 4
abbrev sizeof_size_t : Nat := 8
abbrev sizeof_AttendanceType : Nat := 4
abbrev sizeof_bool : Nat := 1
abbrev sizeof_double : Nat := 8
abbrev sizeof_STR_CHAR : Nat := 1

/-- Ordinal of `AttendanceType::Unknown`. -/
def AttendanceType.Unknown : Nat := 0
/-- Ordinal of `AttendanceType::External`, the last usable tag. -/
def AttendanceType.External : Nat := 6
/-- Ordinal of `AttendanceType::MaxCount`, the exclusive sentinel. -/
def AttendanceType.MaxCount : Nat := 7

/-- Conversion of an integer to `size_t` (reduction modulo `2 ^ 64`). -/
def toSizeT (n : Int) : Nat := (n % 2 ^ 64).toNat

/-- The cast `(intptr_t)n` of a `size_t` value (two's complement). -/
def toIntPtr (n : Nat) : Int :=
  if n % 2 ^ 64 < 2 ^ 63 then ((n % 2 ^ 64 : Nat) : Int) else ((n % 2 ^ 64 : Nat) : Int) - 2 ^ 64

/-- The object representation of an `int`, as an unsigned 32-bit number. -/
def intToRaw (v : Int) : Nat := (v % 2 ^ 32).toNat

/-- The `int` whose object representation is the given 32-bit number. -/
def rawToInt (r : Nat) : Int :=
  if r % 2 ^ 32 < 2 ^ 31 then ((r % 2 ^ 32 : Nat) : Int) else ((r % 2 ^ 32 : Nat) : Int) - 2 ^ 32

/-- The `bool` a byte is read as by `s = *(bool*)p`: 0 is `false`, 1 is `true`.
Any other byte is not the representation of a `bool` value (the load is
undefined in C++); the embedding reads it like every non-zero byte, as `true`. -/
def rawToBool (r : Nat) : Bool := decide (r ≠ 0)

/-- Source `aligned`: `n + ((-(intptr_t)n) & (ALIGN_BY - 1))` in `size_t` arithmetic. -/
def aligned (n : Nat) : Nat :=
  (n + (toSizeT (-(toIntPtr n)) &&& (ALIGN_BY - 1))) % 2 ^ 64

/-- Source `aligned_sizeof_str`, given `s.size()`. -/
def aligned_sizeof_str (size : Nat) : Nat :=
  (aligned sizeof_size_t + aligned (size * sizeof_STR_CHAR % 2 ^ 64)) % 2 ^ 64

/-- Little-endian object representation: the low `k` bytes of `v`. -/
def toBytes : Nat → Nat → List Byte
  | 0, _ => []
  | k + 1, v => ⟨v % 256, Nat.mod_lt _ (by decide)⟩ :: toBytes k (v / 256)

/-- The number whose little-endian representation is the given bytes. -/
def fromBytes : List Byte → Nat
  | [] => 0
  | b :: bs => b.val + 256 * fromBytes bs

/-- Reading `n` bytes at offset `p`; `none` when the range leaves the span. -/
def load (mem : List Byte) (p n : Nat) : Option (List Byte) :=
  if p + n ≤ mem.length then some ((mem.drop p).take n) else none

/-- Writing bytes at offset `p`; `none` when the range leaves the buffer. -/
def store (mem : List Byte) (p : Nat) (bs : List Byte) : Option (List Byte) :=
  if p + bs.length ≤ mem.length then some (mem.take p ++ bs ++ mem.drop (p + bs.length)) else none

/-- Ways a codec body stops early: `break` out of the `while(true)` block, the
fatal `__fastfail`, or an access outside the caller's span. -/
inductive Stop where
  | brk
  | fastfail
  | outOfSpan
  deriving DecidableEq, Repr

/-- What a call did: it returned `n` leaving the state `st` behind (the target
record for decoding, the buffer for encoding), it terminated the process, or it
touched memory outside the span it was given. -/
inductive Outcome (σ : Type) where
  | ret (n : Nat) (st : σ)
  | fastfail
  | outOfSpan
  deriving DecidableEq, Repr

/-- Source `std::isfinite` on a binary64 bit pattern: the exponent is not all ones. -/
def isfinite (bits : Nat) : Bool := decide (bits / 2 ^ 52 % 2 ^ 11 ≠ 2 ^ 11 - 1)

/-- Source `read_aligned<T>`: returns the advanced pointer and the raw value,
or stops with `brk` where the source returns `false`. -/
def read_aligned (sizeofT : Nat) (mem : List Byte) (p pEnd : Nat) : Except Stop (Nat × Nat) :=
  let szcb := aligned sizeofT
  if p + szcb > pEnd then .error .brk
  else
    match load mem p sizeofT with
    | none => .error .outOfSpan
    | some bs => .ok (p + szcb, fromBytes bs)

/-- Source `read_aligned_double`. -/
def read_aligned_double (mem : List Byte) (p pEnd : Nat) : Except Stop (Nat × Nat) :=
  match read_aligned sizeof_double mem p pEnd with
  | .error e => .error e
  | .ok (p, s) => if !isfinite s then .error .brk else .ok (p, s)

/-- Source `read_aligned_str`. -/
def read_aligned_str (mem : List Byte) (p pEnd : Nat) (szchMaxLen : Nat) :
    Except Stop (Nat × List Byte) :=
  match read_aligned sizeof_size_t mem p pEnd with
  | .error e => .error e
  | .ok (p, sz) =>
    if toIntPtr sz < 0 ∨ p + sz * sizeof_STR_CHAR % 2 ^ 64 > pEnd then .error .brk
    else
      match load mem p sz with
      | none => .error .outOfSpan
      | some s =>
        let p := p + aligned (sz * sizeof_STR_CHAR % 2 ^ 64)
        if szchMaxLen > 0 ∧ s.length > szchMaxLen then .error .brk
        else .ok (p, s)

/-- Source `struct Student`; `attendance` is the enum's underlying `unsigned int`,
`fPerformanceScore` the bit pattern of the `double`, strings are byte lists. -/
structure Student where
  nAge : Int := 0
  strGivenName : List Byte := []
  strSecondName : List Byte := []
  strThirdName : List Byte := []
  attendance : Nat := AttendanceType.Unknown
  bSuspended : Bool := false
  fPerformanceScore : Nat := 0
  strNotes : List Byte := []
  deriving DecidableEq, Repr

/-- Source `struct MyClass`. -/
structure MyClass where
  nYearEstablished : Int := 0
  strName : List Byte := []
  students : List Student := []
  strNotes : List Byte := []
  deriving DecidableEq, Repr

/-- Body of the `while(true)` block of `Student::fromByteArray`: every `break`
is `Stop.brk`, the `return` of the success branch is the `ok` result. -/
def Student.fromByteArray.body (self : Student) (pData : Option (List Byte)) (szcbData : Nat) :
    Except Stop (Nat × Student) :=
  match pData with
  | none => .error .brk
  | some mem =>
    if toIntPtr szcbData ≤ 0 then .error .brk else
    let pS := 0
    let pEnd := pS + szcbData
    read_aligned sizeof_int mem pS pEnd >>= fun (pS, v) =>
    let self := { self with nAge := rawToInt v }
    if self.nAge ≠ (0 : Int) ∧ (self.nAge < MIN_ALLOWED_AGE ∨ self.nAge > MAX_ALLOWED_AGE) then
      .error .brk else
    read_aligned_str mem pS pEnd MAX_NAME_LEN_1 >>= fun (pS, s) =>
    let self := { self with strGivenName := s }
    if self.strGivenName.isEmpty then .error .brk else
    read_aligned_str mem pS pEnd MAX_NAME_LEN_1 >>= fun (pS, s) =>
    let self := { self with strSecondName := s }
    read_aligned_str mem pS pEnd MAX_NAME_LEN_1 >>= fun (pS, s) =>
    let self := { self with strThirdName := s }
    read_aligned sizeof_AttendanceType mem pS pEnd >>= fun (pS, v) =>
    let self := { self with attendance := v }
    if self.attendance < AttendanceType.Unknown ∨ self.attendance ≥ AttendanceType.MaxCount then
      .error .brk else
    read_aligned sizeof_bool mem pS pEnd >>= fun (pS, v) =>
    let self := { self with bSuspended := rawToBool v }
    if self.bSuspended ≠ true ∧ self.bSuspended ≠ false then .error .brk else
    read_aligned_double mem pS pEnd >>= fun (pS, v) =>
    let self := { self with fPerformanceScore := v }
    read_aligned_str mem pS pEnd 0 >>= fun (pS, s) =>
    let self := { self with strNotes := s }
    if pS ≤ pEnd then .ok (pS, self)
    else .error .fastfail

/-- Source `Student::fromByteArray`: on `break` the struct is reset and 0 returned. -/
def Student.fromByteArray (self : Student) (pData : Option (List Byte)) (szcbData : Nat) :
    Outcome Student :=
  match Student.fromByteArray.body self pData szcbData with
  | .ok (n, self) => .ret n self
  | .error .brk => .ret 0 {}
  | .error .fastfail => .fastfail
  | .error .outOfSpan => .outOfSpan

/-- The student loop of `MyClass::fromByteArray`: `count` iterations remain,
`st` is the reused local, `pS` the read pointer, `students` the vector so far. -/
def MyClass.fromByteArray.loop (mem : List Byte) (pEnd : Nat) :
    Nat → Student → Nat → List Student → Except Stop (Nat × List Student)
  | 0, _, pS, students => .ok (pS, students)
  | count + 1, st, pS, students =>
    match st.fromByteArray (some (mem.drop pS)) (toSizeT ((pEnd : Int) - (pS : Int))) with
    | .fastfail => .error .fastfail
    | .outOfSpan => .error .outOfSpan
    | .ret szcb st =>
      if szcb = 0 then .error .brk
      else MyClass.fromByteArray.loop mem pEnd count st (pS + szcb) (students ++ [st])

/-- Body of the `while(true)` block of `MyClass::fromByteArray`. -/
def MyClass.fromByteArray.body (self : MyClass) (pData : Option (List Byte)) (szcbData : Nat) :
    Except Stop (Nat × MyClass) :=
  match pData with
  | none => .error .brk
  | some mem =>
    if toIntPtr szcbData ≤ 0 then .error .brk else
    let pS := 0
    let pEnd := pS + szcbData
    read_aligned sizeof_int mem pS pEnd >>= fun (pS, v) =>
    let self := { self with nYearEstablished := rawToInt v }
    if self.nYearEstablished ≠ (0 : Int) ∧
        (self.nYearEstablished < MIN_ALLOWED_YEAR ∨ self.nYearEstablished > MAX_ALLOWED_YEAR) then
      .error .brk else
    read_aligned_str mem pS pEnd MAX_NAME_LEN_2 >>= fun (pS, s) =>
    let self := { self with strName := s }
    if self.strName.isEmpty then .error .brk else
    read_aligned sizeof_size_t mem pS pEnd >>= fun (pS, szCntStudents) =>
    if toIntPtr szCntStudents < 0 then .error .brk else
    let self := { self with students := [] }
    MyClass.fromByteArray.loop mem pEnd szCntStudents {} pS self.students >>= fun (pS, students) =>
    let self := { self with students := students }
    read_aligned_str mem pS pEnd 0 >>= fun (pS, s) =>
    let self := { self with strNotes := s }
    if pS ≤ pEnd then .ok (pS, self)
    else .error .fastfail

/-- Source `MyClass::fromByteArray`: on `break` the struct is reset and 0 returned. -/
def MyClass.fromByteArray (self : MyClass) (pData : Option (List Byte)) (szcbData : Nat) :
    Outcome MyClass :=
  match MyClass.fromByteArray.body self pData szcbData with
  | .ok (n, self) => .ret n self
  | .error .brk => .ret 0 {}
  | .error .fastfail => .fastfail
  | .error .outOfSpan => .outOfSpan

/-- Source `memset(p, c, n)`. -/
def memset (buf : List Byte) (p : Nat) (c : Byte) (n : Nat) : Except Stop (List Byte) :=
  match store buf p (List.replicate n c) with
  | none => .error .outOfSpan
  | some buf => .ok buf

/-- Source `copy_aligned<T>`: stores the `sizeof(T)` bytes of `s` and advances
the pointer by `aligned(sizeof(s))`. -/
def copy_aligned (sizeofT : Nat) (buf : List Byte) (p : Nat) (s : Nat) :
    Except Stop (List Byte × Nat) :=
  match store buf p (toBytes sizeofT s) with
  | none => .error .outOfSpan
  | some buf => .ok (buf, p + aligned sizeofT)

/-- Source `copy_aligned_str`. -/
def copy_aligned_str (buf : List Byte) (p : Nat) (s : List Byte) :
    Except Stop (List Byte × Nat) :=
  let szStr := s.length
  match store buf p (toBytes sizeof_size_t szStr) with
  | none => .error .outOfSpan
  | some buf =>
    let p := p + aligned sizeof_size_t
    match store buf p (s.take (szStr * sizeof_STR_CHAR % 2 ^ 64)) with
    | none => .error .outOfSpan
    | some buf => .ok (buf, p + aligned (szStr * sizeof_STR_CHAR % 2 ^ 64))

/-- The value `szcbData` computed at the top of `Student::toByteArray`. -/
def Student.toByteArray.szcbData (self : Student) : Nat :=
  (aligned sizeof_int +
    aligned_sizeof_str self.strGivenName.length +
    aligned_sizeof_str self.strSecondName.length +
    aligned_sizeof_str self.strThirdName.length +
    aligned sizeof_AttendanceType +
    aligned sizeof_bool +
    aligned sizeof_double +
    aligned_sizeof_str self.strNotes.length) % 2 ^ 64

/-- The writes of fill mode in `Student::toByteArray`; returns the buffer and `pD`. -/
def Student.toByteArray.fill (self : Student) (buf : List Byte) (szcbData : Nat) :
    Except Stop (List Byte × Nat) := do
  let pD := 0
  let buf ← memset buf pD 0 szcbData
  let (buf, pD) ← copy_aligned sizeof_int buf pD (intToRaw self.nAge)
  let (buf, pD) ← copy_aligned_str buf pD self.strGivenName
  let (buf, pD) ← copy_aligned_str buf pD self.strSecondName
  let (buf, pD) ← copy_aligned_str buf pD self.strThirdName
  let (buf, pD) ← copy_aligned sizeof_AttendanceType buf pD self.attendance
  let (buf, pD) ← copy_aligned sizeof_bool buf pD (if self.bSuspended then 1 else 0)
  let (buf, pD) ← copy_aligned sizeof_double buf pD self.fPerformanceScore
  let (buf, pD) ← copy_aligned_str buf pD self.strNotes
  pure (buf, pD)

/-- Source `Student::toByteArray`. The state of the outcome is the memory at
`pBuff` after the call (`none` for a null `pBuff`). -/
def Student.toByteArray (self : Student) (pBuff : Option (List Byte)) (szcbBuff : Nat) :
    Outcome (Option (List Byte)) :=
  let szcbData := Student.toByteArray.szcbData self
  match pBuff with
  | none => .ret szcbData none
  | some buf =>
    if szcbBuff ≥ szcbData then
      match Student.toByteArray.fill self buf szcbData with
      | .ok (buf, pD) =>
        if toSizeT (pD : Int) = szcbData then .ret szcbData (some buf)
        else .fastfail
      | .error .outOfSpan => .outOfSpan
      | .error _ => .fastfail
    else .ret 0 (some buf)

/-- The value `szcbData` computed at the top of `MyClass::toByteArray`; the
loop adds what `itr->toByteArray()` returns in size-query mode. -/
def MyClass.toByteArray.szcbData (self : MyClass) : Nat :=
  self.students.foldl
    (fun szcbData itr => (szcbData + Student.toByteArray.szcbData itr) % 2 ^ 64)
    ((aligned sizeof_int +
      aligned_sizeof_str self.strName.length +
      aligned sizeof_size_t +
      aligned_sizeof_str self.strNotes.length) % 2 ^ 64)

/-- The student loop of fill mode in `MyClass::toByteArray`. -/
def MyClass.toByteArray.loop (pEnd : Nat) :
    List Student → List Byte → Nat → Except Stop (List Byte × Nat)
  | [], buf, pD => .ok (buf, pD)
  | itr :: rest, buf, pD =>
    match itr.toByteArray (some (buf.drop pD)) (toSizeT ((pEnd : Int) - (pD : Int))) with
    | .fastfail => .error .fastfail
    | .outOfSpan => .error .outOfSpan
    | .ret szcb sub =>
      if szcb = 0 then .error .fastfail
      else MyClass.toByteArray.loop pEnd rest (buf.take pD ++ sub.getD (buf.drop pD)) (pD + szcb)

/-- The writes of fill mode in `MyClass::toByteArray`; returns the buffer and `pD`. -/
def MyClass.toByteArray.fill (self : MyClass) (buf : List Byte) (szcbData : Nat) :
    Except Stop (List Byte × Nat) := do
  let pD := 0
  let pEnd := pD + szcbData
  let buf ← memset buf pD 0 szcbData
  let (buf, pD) ← copy_aligned sizeof_int buf pD (intToRaw self.nYearEstablished)
  let (buf, pD) ← copy_aligned_str buf pD self.strName
  let szCntStudents := self.students.length
  let (buf, pD) ← copy_aligned sizeof_size_t buf pD szCntStudents
  let (buf, pD) ← MyClass.toByteArray.loop pEnd self.students buf pD
  let (buf, pD) ← copy_aligned_str buf pD self.strNotes
  pure (buf, pD)

/-- Source `MyClass::toByteArray`. -/
def MyClass.toByteArray (self : MyClass) (pBuff : Option (List Byte)) (szcbBuff : Nat) :
    Outcome (Option (List Byte)) :=
  let szcbData := MyClass.toByteArray.szcbData self
  match pBuff with
  | none => .ret szcbData none
  | some buf =>
    if szcbBuff ≥ szcbData then
      match MyClass.toByteArray.fill self buf szcbData with
      | .ok (buf, pD) =>
        if toSizeT (pD : Int) = szcbData then .ret szcbData (some buf)
        else .fastfail
      | .error .outOfSpan => .outOfSpan
      | .error _ => .fastfail
    else .ret 0 (some buf)

/-! ## Wire format and record predicates used in the statements -/

/-- One scalar slot of the wire format: the value's bytes, then zero padding. -/
def slot (sizeofT : Nat) (v : Nat) : List Byte :=
  toBytes sizeofT v ++ List.replicate (aligned sizeofT - sizeofT) 0

/-- One string of the wire format: length slot, characters, zero padding. -/
def strWire (s : List Byte) : List Byte :=
  slot sizeof_size_t s.length ++ s ++ List.replicate (aligned s.length - s.length) 0

/-- Wire image of a student whose `bool` slot holds the raw byte `b`: the eight
fields in declaration order. -/
def Student.wireWith (s : Student) (b : Nat) : List Byte :=
  slot sizeof_int (intToRaw s.nAge) ++ strWire s.strGivenName ++ strWire s.strSecondName ++
    strWire s.strThirdName ++ slot sizeof_AttendanceType s.attendance ++
    slot sizeof_bool b ++ slot sizeof_double s.fPerformanceScore ++
    strWire s.strNotes

/-- Wire image of a student: `bSuspended` is stored as 1 or 0. -/
def Student.wire (s : Student) : List Byte :=
  s.wireWith (if s.bSuspended then 1 else 0)

/-- Wire images of the students, one after the other. -/
def wireStudents : List Student → List Byte
  | [] => []
  | s :: rest => s.wire ++ wireStudents rest

/-- Wire image of a class record. -/
def MyClass.wire (R : MyClass) : List Byte :=
  slot sizeof_int (intToRaw R.nYearEstablished) ++ strWire R.strName ++
    slot sizeof_size_t R.students.length ++ wireStudents R.students ++ strWire R.strNotes

/-- Rounding up to a multiple of 8 in unbounded arithmetic. -/
def roundUp8 (n : Nat) : Nat := (n + 7) / 8 * 8

/-- Encoded size of a student in unbounded arithmetic. -/
def Student.encodedSize (s : Student) : Nat :=
  64 + roundUp8 s.strGivenName.length + roundUp8 s.strSecondName.length +
    roundUp8 s.strThirdName.length + roundUp8 s.strNotes.length

/-- Encoded size of a student list in unbounded arithmetic. -/
def studentsSize : List Student → Nat
  | [] => 0
  | s :: rest => s.encodedSize + studentsSize rest

/-- Encoded size of a class record in unbounded arithmetic. -/
def MyClass.encodedSize (R : MyClass) : Nat :=
  32 + roundUp8 R.strName.length + roundUp8 R.strNotes.length + studentsSize R.students

/-- A record that exists as an object of the 64-bit process: no object, and so
no encoding of it either, reaches `PTRDIFF_MAX = 2 ^ 63 - 1` bytes. -/
def MyClass.inMemory (R : MyClass) : Prop := R.encodedSize < 2 ^ 63

/-- The same bound for a single student. -/
def Student.inMemory (s : Student) : Prop := s.encodedSize < 2 ^ 63

instance (R : MyClass) : Decidable R.inMemory := inferInstanceAs (Decidable (_ < _))
instance (s : Student) : Decidable s.inMemory := inferInstanceAs (Decidable (_ < _))

/-- The validator's constraints on a student (those `Student::fromByteArray`
checks); a finite score is a 64-bit pattern whose exponent is not all ones. -/
def Student.valid (s : Student) : Prop :=
  (s.nAge = 0 ∨ (10 ≤ s.nAge ∧ s.nAge ≤ 200)) ∧
  s.strGivenName ≠ [] ∧ s.strGivenName.length ≤ 1024 ∧
  s.strSecondName.length ≤ 1024 ∧ s.strThirdName.length ≤ 1024 ∧
  s.attendance ≤ 6 ∧
  s.fPerformanceScore < 2 ^ 64 ∧ isfinite s.fPerformanceScore = true

instance (s : Student) : Decidable s.valid := by
  unfold Student.valid; exact inferInstance

/-- The validator's constraints on a class record. -/
def MyClass.valid (R : MyClass) : Prop :=
  (R.nYearEstablished = 0 ∨ (1000 ≤ R.nYearEstablished ∧ R.nYearEstablished ≤ 2100)) ∧
  R.strName ≠ [] ∧ R.strName.length ≤ 256 ∧
  ∀ s ∈ R.students, s.valid

instance (R : MyClass) : Decidable R.valid := by
  unfold MyClass.valid; exact inferInstance

/-! ## Concrete inputs -/

/-- The student of the concrete scenario: age 21, Enrolled, "John" "Doe". -/
def scenarioStudent : Student :=
  { nAge := 21, attendance := 1, strGivenName := [74, 111, 104, 110],
    strSecondName := [68, 111, 101] }

/-- The record of the concrete scenario: 2023, "Class of 2023", one student, notes "note". -/
def scenarioClass : MyClass :=
  { nYearEstablished := 2023,
    strName := [67, 108, 97, 115, 115, 32, 111, 102, 32, 50, 48, 50, 51],
    students := [scenarioStudent],
    strNotes := [110, 111, 116, 101] }

/-- The scenario with the student's age changed to 5. -/
def scenarioAgeFive : MyClass :=
  { scenarioClass with students := [{ scenarioStudent with nAge := 5 }] }

/-- A 41-byte input: year 0, name "A", no students, and a notes field that
announces one character and ends right after it, before its padding. -/
def shortNotesInput : List Byte :=
  toBytes 8 0 ++ toBytes 8 1 ++ toBytes 8 65 ++ toBytes 8 0 ++ toBytes 8 1 ++ [65]

/-- A 73-byte student input whose notes field ends right after its one character. -/
def shortNotesStudentInput : List Byte :=
  toBytes 8 0 ++ toBytes 8 1 ++ toBytes 8 65 ++ toBytes 8 0 ++ toBytes 8 0 ++ toBytes 8 0 ++
    toBytes 8 0 ++ toBytes 8 0 ++ toBytes 8 1 ++ [65]

/-- Offset of the first student in the wire image of a class record. -/
def MyClass.studentsOffset (R : MyClass) : Nat := 0 + 8 + (strWire R.strName).length + 8

/-! ## Definitions for the remaining statements -/

/-- The commented-out reference body of `aligned`:
`n + ((n % ALIGN_BY) != 0 ? ALIGN_BY - (n % ALIGN_BY) : 0)` in `size_t` arithmetic. -/
def alignedReference (n : Nat) : Nat :=
  (n + (if n % ALIGN_BY ≠ 0 then ALIGN_BY - n % ALIGN_BY else 0)) % 2 ^ 64

/-- A 9-byte span holding a string field that announces one character and ends
right after it, before its padding. -/
def shortStringInput : List Byte := toBytes 8 1 ++ [65]

/-- Padding offsets in the encoding of a student, as laid out by its field
values: bytes `sizeof(T)..7` of the `int`, enum and `bool` slots, and the bytes
between a string's length and its length rounded up to a multiple of 8. -/
def Student.isPadding (s : Student) (i : Nat) : Prop :=
  let o2 := 8
  let o3 := o2 + 8 + roundUp8 s.strGivenName.length
  let o4 := o3 + 8 + roundUp8 s.strSecondName.length
  let o5 := o4 + 8 + roundUp8 s.strThirdName.length
  let o6 := o5 + 8
  let o7 := o6 + 8
  let o8 := o7 + 8
  (sizeof_int ≤ i ∧ i < 8) ∨
  (o2 + 8 + s.strGivenName.length ≤ i ∧ i < o3) ∨
  (o3 + 8 + s.strSecondName.length ≤ i ∧ i < o4) ∨
  (o4 + 8 + s.strThirdName.length ≤ i ∧ i < o5) ∨
  (o5 + sizeof_AttendanceType ≤ i ∧ i < o6) ∨
  (o6 + sizeof_bool ≤ i ∧ i < o7) ∨
  (o8 + 8 + s.strNotes.length ≤ i ∧ i < o8 + 8 + roundUp8 s.strNotes.length)

/-- Padding offsets inside consecutive student encodings. -/
def studentsIsPadding : List Student → Nat → Prop
  | [], _ => False
  | s :: rest, i =>
    if i < s.encodedSize then s.isPadding i else studentsIsPadding rest (i - s.encodedSize)

/-- Padding offsets in the encoding of a class record, as laid out by its field
values. -/
def MyClass.isPadding (R : MyClass) (i : Nat) : Prop :=
  let o2 := 8
  let o3 := o2 + 8 + roundUp8 R.strName.length
  let o4 := o3 + 8
  let o5 := o4 + studentsSize R.students
  (sizeof_int ≤ i ∧ i < 8) ∨
  (o2 + 8 + R.strName.length ≤ i ∧ i < o3) ∨
  (o4 ≤ i ∧ i < o5 ∧ studentsIsPadding R.students (i - o4)) ∨
  (o5 + 8 + R.strNotes.length ≤ i ∧ i < o5 + 8 + roundUp8 R.strNotes.length)

/-- The two spans hold the same bytes at the offsets `lo ≤ i < hi`. -/
def agreeOn (m m2 : List Byte) (lo hi : Nat) : Prop :=
  ∀ i, lo ≤ i → i < hi → m2[i]? = m[i]?

/-- The 64-bit count field where the decoder reads it: the 8 bytes after the
name string, whose own length field sits at offset 8. -/
def MyClass.countField (data : List Byte) : Nat :=
  let szName := fromBytes ((data.drop 8).take 8)
  let pCount := 8 + 8 + aligned (szName * sizeof_STR_CHAR % 2 ^ 64)
  fromBytes ((data.drop pCount).take 8)

/-- Number of iterations the student loop of `MyClass::fromByteArray` performs
(calls of `st.fromByteArray`), counted along the recursion of
`MyClass.fromByteArray.loop`; the iteration that fails is counted. -/
def MyClass.fromByteArray.loopSteps (mem : List Byte) (pEnd : Nat) :
    Nat → Student → Nat → Nat
  | 0, _, _ => 0
  | count + 1, st, pS =>
    match st.fromByteArray (some (mem.drop pS)) (toSizeT ((pEnd : Int) - (pS : Int))) with
    | .fastfail => 1
    | .outOfSpan => 1
    | .ret szcb st =>
      if szcb = 0 then 1
      else 1 + MyClass.fromByteArray.loopSteps mem pEnd count st (pS + szcb)

/-! ## Arithmetic of the casts and of `aligned` -/

theorem toIntPtr_of_lt {n : Nat} (h : n < 2 ^ 63) : toIntPtr n = (n : Int) := by
  unfold toIntPtr
  have h1 : n % 2 ^ 64 = n := Nat.mod_eq_of_lt (by omega)
  rw [h1, if_pos h]

theorem toIntPtr_pos_iff (n : Nat) : 0 < toIntPtr n ↔ 0 < n % 2 ^ 64 ∧ n % 2 ^ 64 < 2 ^ 63 := by
  unfold toIntPtr
  have : n % 2 ^ 64 < 2 ^ 64 := Nat.mod_lt _ (by norm_num)
  split <;> omega

theorem toIntPtr_neg_iff (n : Nat) : toIntPtr n < 0 ↔ 2 ^ 63 ≤ n % 2 ^ 64 := by
  unfold toIntPtr
  have : n % 2 ^ 64 < 2 ^ 64 := Nat.mod_lt _ (by norm_num)
  split <;> omega

theorem toSizeT_natCast {n : Nat} (h : n < 2 ^ 64) : toSizeT (n : Int) = n := by
  unfold toSizeT
  omega

theorem toSizeT_sub {a b : Nat} (hb : b ≤ a) (ha : a < 2 ^ 64) :
    toSizeT ((a : Int) - (b : Int)) = a - b := by
  unfold toSizeT
  omega

theorem and_seven (x : Nat) : x &&& 7 = x % 8 :=
  Nat.and_pow_two_sub_one_eq_mod x 3

theorem aligned_eq_roundUp8 {n : Nat} (h : n ≤ 2 ^ 64 - 8) : aligned n = roundUp8 n := by
  unfold aligned roundUp8 ALIGN_BY
  rw [show (8 - 1 : Nat) = 7 from rfl, and_seven]
  unfold toSizeT toIntPtr
  have h1 : n % 2 ^ 64 = n := Nat.mod_eq_of_lt (by omega)
  rw [h1]
  split <;> omega

theorem aligned_one : aligned 1 = 8 := by decide
theorem aligned_four : aligned 4 = 8 := by decide
theorem aligned_eight : aligned 8 = 8 := by decide

theorem roundUp8_ge (n : Nat) : n ≤ roundUp8 n := by unfold roundUp8; omega
theorem roundUp8_lt (n : Nat) : roundUp8 n < n + 8 := by unfold roundUp8; omega
theorem roundUp8_mod (n : Nat) : roundUp8 n % 8 = 0 := by unfold roundUp8; omega

theorem rawToInt_intToRaw {v : Int} (h1 : -(2 ^ 31) ≤ v) (h2 : v < 2 ^ 31) :
    rawToInt (intToRaw v) = v := by
  unfold rawToInt intToRaw
  split <;> omega

theorem intToRaw_lt (v : Int) : intToRaw v < 2 ^ 32 := by
  unfold intToRaw
  omega

/-! ## Little-endian bytes -/

@[simp] theorem toBytes_length (k v : Nat) : (toBytes k v).length = k := by
  induction k generalizing v with
  | zero => rfl
  | succ k ih => simp [toBytes, ih]

theorem fromBytes_toBytes (k v : Nat) : fromBytes (toBytes k v) = v % 256 ^ k := by
  induction k generalizing v with
  | zero => simp [toBytes, fromBytes, Nat.mod_one]
  | succ k ih =>
    simp only [toBytes, fromBytes, ih]
    rw [pow_succ, Nat.mul_comm (256 ^ k) 256, Nat.mod_mul]


/-! ## Loads and stores on structured memory -/

theorem drop_step {mem w r : List Byte} {p : Nat} (h : mem.drop p = w ++ r) :
    mem.drop (p + w.length) = r := by
  rw [← List.drop_drop, h, List.drop_left]

theorem length_of_drop {mem w : List Byte} {p : Nat} (h : mem.drop p = w) (hw : 0 < w.length) :
    p + w.length = mem.length := by
  have := congrArg List.length h
  rw [List.length_drop] at this
  omega

theorem load_of_drop {mem w r : List Byte} {p : Nat} (h : mem.drop p = w ++ r) (hp : p ≤ mem.length) :
    load mem p w.length = some w := by
  unfold load
  have := congrArg List.length h
  rw [List.length_drop, List.length_append] at this
  rw [if_pos (by omega), h, List.take_left]

theorem store_zeros (W bs tail : List Byte) (m : Nat) (h : bs.length ≤ m) :
    store (W ++ (List.replicate m 0 ++ tail)) W.length bs =
      some ((W ++ bs) ++ (List.replicate (m - bs.length) 0 ++ tail)) := by
  unfold store
  rw [if_pos (by simp; omega)]
  congr 1
  rw [List.take_left, List.drop_append, List.drop_append_of_le_length (by simp; omega)]
  simp [List.append_assoc]


theorem ok_bind {α β : Type} (a : α) (f : α → Except Stop β) :
    (Except.ok a >>= f) = f a := rfl

theorem ite_bind {α β : Type} (c : Prop) [Decidable c] (e : Stop) (x : Except Stop α)
    (f : α → Except Stop β) :
    ((if c then Except.error e else x) >>= f) = if c then Except.error e else x >>= f := by
  split <;> rfl

theorem slot_length {k : Nat} (v : Nat) (hk : k ≤ 8) (hal : aligned k = 8) :
    (slot k v).length = 8 := by
  simp [slot, hal]; omega

theorem strWire_length {s : List Byte} (hs : s.length ≤ 2 ^ 64 - 8) :
    (strWire s).length = 8 + roundUp8 s.length := by
  have := roundUp8_ge s.length
  simp [strWire, slot_length _ (le_refl 8) aligned_eight, sizeof_size_t, aligned_eq_roundUp8 hs]
  omega

theorem read_aligned_step {k v p pEnd : Nat} {mem r : List Byte} (hk : k ≤ 8)
    (hal : aligned k = 8) (h : mem.drop p = slot k v ++ r) (hp : p + 8 ≤ pEnd) :
    read_aligned k mem p pEnd = .ok (p + 8, v % 256 ^ k) := by
  have hlen := congrArg List.length h
  rw [List.length_drop, List.length_append, slot_length v hk hal] at hlen
  unfold read_aligned
  simp only [hal]
  rw [if_neg (by omega)]
  have h2 : mem.drop p = toBytes k v ++ (List.replicate (aligned k - k) 0 ++ r) := by
    rw [h, slot, List.append_assoc]
  have h3 := load_of_drop h2 (by omega)
  rw [toBytes_length] at h3
  simp only [h3, fromBytes_toBytes]

theorem read_aligned_str_step {p pEnd : Nat} {mem s r : List Byte} (szchMaxLen : Nat)
    (hs : s.length < 2 ^ 63) (h : mem.drop p = strWire s ++ r)
    (hp : p + (strWire s).length ≤ pEnd) :
    read_aligned_str mem p pEnd szchMaxLen =
      if szchMaxLen > 0 ∧ s.length > szchMaxLen then .error .brk
      else .ok (p + (strWire s).length, s) := by
  have hlen := congrArg List.length h
  have hwl := strWire_length (s := s) (by omega)
  have hge := roundUp8_ge s.length
  rw [List.length_drop, List.length_append] at hlen
  have h1 : mem.drop p = slot sizeof_size_t s.length ++
      (s ++ (List.replicate (aligned s.length - s.length) 0 ++ r)) := by
    rw [h, strWire]; simp only [List.append_assoc]
  have h2 := drop_step h1
  rw [show (slot sizeof_size_t s.length).length = 8 from
    slot_length _ (le_refl 8) aligned_eight] at h2
  have h3 := load_of_drop h2 (by omega)
  unfold read_aligned_str
  rw [read_aligned_step (le_refl 8) aligned_eight h1 (by omega)]
  have hmod : s.length % 256 ^ sizeof_size_t = s.length := Nat.mod_eq_of_lt (by
    simp only [sizeof_size_t]; omega)
  have hmod2 : s.length * sizeof_STR_CHAR % 2 ^ 64 = s.length := by
    simp only [sizeof_STR_CHAR, Nat.mul_one]; exact Nat.mod_eq_of_lt (by omega)
  simp only [hmod, hmod2]
  have hneg : ¬ (toIntPtr s.length < 0 ∨ p + 8 + s.length > pEnd) := by
    rw [toIntPtr_of_lt hs]; omega
  rw [if_neg hneg, h3, aligned_eq_roundUp8 (by omega)]
  simp only [hwl, Nat.add_assoc]

theorem copy_aligned_step {k m : Nat} (v : Nat) (W tail : List Byte) (hk : k ≤ 8)
    (hal : aligned k = 8) (hm : 8 ≤ m) :
    copy_aligned k (W ++ (List.replicate m 0 ++ tail)) W.length v =
      .ok ((W ++ slot k v) ++ (List.replicate (m - 8) 0 ++ tail), (W ++ slot k v).length) := by
  unfold copy_aligned
  rw [store_zeros W _ tail m (by simp; omega)]
  simp only [toBytes_length, hal, List.length_append, slot_length v hk hal]
  congr 2
  have : m - k = (8 - k) + (m - 8) := by omega
  rw [this, List.replicate_add]
  simp only [slot, hal, List.append_assoc]

theorem copy_aligned_str_step {m : Nat} (s W tail : List Byte) (hs : s.length < 2 ^ 63)
    (hm : (strWire s).length ≤ m) :
    copy_aligned_str (W ++ (List.replicate m 0 ++ tail)) W.length s =
      .ok ((W ++ strWire s) ++ (List.replicate (m - (strWire s).length) 0 ++ tail),
        (W ++ strWire s).length) := by
  have hwl := strWire_length (s := s) (by omega)
  have hge := roundUp8_ge s.length
  have hmod2 : s.length * sizeof_STR_CHAR % 2 ^ 64 = s.length := by
    simp only [sizeof_STR_CHAR, Nat.mul_one]; exact Nat.mod_eq_of_lt (by omega)
  unfold copy_aligned_str
  simp only [hmod2, List.take_length]
  rw [store_zeros W _ tail m (by simp [sizeof_size_t]; omega)]
  have e1 : W.length + aligned sizeof_size_t = (W ++ toBytes sizeof_size_t s.length).length := by
    simp [sizeof_size_t, aligned_eight]
  dsimp only
  rw [e1, store_zeros _ s tail _ (by simp [sizeof_size_t]; omega)]
  dsimp only
  rw [aligned_eq_roundUp8 (show s.length ≤ 2 ^ 64 - 8 by omega)]
  congr 2
  · have : m - (toBytes sizeof_size_t s.length).length - s.length =
        (roundUp8 s.length - s.length) + (m - (strWire s).length) := by
      simp [sizeof_size_t]; omega
    rw [this, List.replicate_add]
    simp only [strWire, slot, sizeof_size_t, aligned_eight, aligned_eq_roundUp8
      (show s.length ≤ 2 ^ 64 - 8 by omega), List.append_assoc, Nat.sub_self,
      List.replicate_zero, List.nil_append]
  · simp [hwl, sizeof_size_t]; omega


/-! ## Students: sizes, fill mode, decoding of a wire image -/

theorem aligned_sizeof_str_eq {n : Nat} (h : n < 2 ^ 63) :
    aligned_sizeof_str n = 8 + roundUp8 n := by
  have := roundUp8_lt n
  unfold aligned_sizeof_str
  rw [Nat.mul_one, Nat.mod_eq_of_lt (show n < 2 ^ 64 by omega), aligned_eight,
    aligned_eq_roundUp8 (by omega)]
  exact Nat.mod_eq_of_lt (by omega)

theorem Student.student_encodedSize_parts (s : Student) (h : s.inMemory) :
    s.strGivenName.length < 2 ^ 63 ∧ s.strSecondName.length < 2 ^ 63 ∧
      s.strThirdName.length < 2 ^ 63 ∧ s.strNotes.length < 2 ^ 63 := by
  unfold Student.inMemory Student.encodedSize at h
  have h1 := roundUp8_ge s.strGivenName.length
  have h2 := roundUp8_ge s.strSecondName.length
  have h3 := roundUp8_ge s.strThirdName.length
  have h4 := roundUp8_ge s.strNotes.length
  omega

theorem Student.student_szcbData_eq (s : Student) (h : s.inMemory) :
    Student.toByteArray.szcbData s = s.encodedSize := by
  obtain ⟨h1, h2, h3, h4⟩ := s.student_encodedSize_parts h
  unfold Student.inMemory at h
  unfold Student.toByteArray.szcbData
  rw [aligned_sizeof_str_eq h1, aligned_sizeof_str_eq h2, aligned_sizeof_str_eq h3,
    aligned_sizeof_str_eq h4, aligned_four, aligned_one, aligned_eight]
  unfold Student.encodedSize at h ⊢
  omega

theorem Student.wireWith_length (s : Student) (b : Nat) (h : s.inMemory) :
    (s.wireWith b).length = s.encodedSize := by
  obtain ⟨h1, h2, h3, h4⟩ := s.student_encodedSize_parts h
  unfold Student.wireWith Student.encodedSize
  simp only [List.length_append, strWire_length (show s.strGivenName.length ≤ 2 ^ 64 - 8 by omega),
    strWire_length (show s.strSecondName.length ≤ 2 ^ 64 - 8 by omega),
    strWire_length (show s.strThirdName.length ≤ 2 ^ 64 - 8 by omega),
    strWire_length (show s.strNotes.length ≤ 2 ^ 64 - 8 by omega),
    slot_length _ (show 4 ≤ 8 by decide) aligned_four,
    slot_length _ (show 1 ≤ 8 by decide) aligned_one,
    slot_length _ (show 8 ≤ 8 by decide) aligned_eight]
  omega

theorem Student.student_wire_length (s : Student) (h : s.inMemory) :
    s.wire.length = s.encodedSize :=
  s.wireWith_length _ h

theorem Student.student_encodedSize_ge (s : Student) : 64 ≤ s.encodedSize := by
  unfold Student.encodedSize; omega

theorem memset_zero (buf : List Byte) (n : Nat) (h : n ≤ buf.length) :
    memset buf 0 0 n = .ok (List.replicate n 0 ++ buf.drop n) := by
  unfold memset store
  simp [h]

theorem copy_aligned_first {k m : Nat} (v : Nat) (tail : List Byte) (hk : k ≤ 8)
    (hal : aligned k = 8) (hm : 8 ≤ m) :
    copy_aligned k (List.replicate m 0 ++ tail) 0 v =
      .ok (slot k v ++ (List.replicate (m - 8) 0 ++ tail), (slot k v).length) := by
  have := copy_aligned_step v [] tail hk hal hm
  simpa using this

theorem Student.student_fill_eq (s : Student) (buf : List Byte) (h : s.inMemory)
    (hbuf : s.encodedSize ≤ buf.length) :
    Student.toByteArray.fill s buf s.encodedSize =
      .ok (s.wire ++ buf.drop s.encodedSize, s.encodedSize) := by
  obtain ⟨h1, h2, h3, h4⟩ := s.student_encodedSize_parts h
  have l1 := strWire_length (show s.strGivenName.length ≤ 2 ^ 64 - 8 by omega)
  have l2 := strWire_length (show s.strSecondName.length ≤ 2 ^ 64 - 8 by omega)
  have l3 := strWire_length (show s.strThirdName.length ≤ 2 ^ 64 - 8 by omega)
  have l4 := strWire_length (show s.strNotes.length ≤ 2 ^ 64 - 8 by omega)
  have hw := s.student_wire_length h
  have hsz : s.encodedSize = 64 + roundUp8 s.strGivenName.length + roundUp8 s.strSecondName.length +
    roundUp8 s.strThirdName.length + roundUp8 s.strNotes.length := rfl
  unfold Student.toByteArray.fill
  dsimp only
  rw [memset_zero buf _ hbuf]
  simp only [ok_bind]
  rw [copy_aligned_first _ _ (show 4 ≤ 8 by decide) aligned_four (by omega)]
  simp only [ok_bind]
  rw [copy_aligned_str_step _ _ _ h1 (by omega)]
  simp only [ok_bind]
  rw [copy_aligned_str_step _ _ _ h2 (by omega)]
  simp only [ok_bind]
  rw [copy_aligned_str_step _ _ _ h3 (by omega)]
  simp only [ok_bind]
  rw [copy_aligned_step _ _ _ (show 4 ≤ 8 by decide) aligned_four (by omega)]
  simp only [ok_bind]
  rw [copy_aligned_step _ _ _ (show 1 ≤ 8 by decide) aligned_one (by omega)]
  simp only [ok_bind]
  rw [copy_aligned_step _ _ _ (show 8 ≤ 8 by decide) aligned_eight (by omega)]
  simp only [ok_bind]
  rw [copy_aligned_str_step _ _ _ h4 (by omega)]
  simp only [ok_bind, pure, Except.pure]
  have hz : s.encodedSize - 8 - (strWire s.strGivenName).length - (strWire s.strSecondName).length -
      (strWire s.strThirdName).length - 8 - 8 - 8 - (strWire s.strNotes).length = 0 := by omega
  rw [hz]
  simp only [List.replicate_zero, List.nil_append]
  rw [← hw]
  rfl


theorem Student.student_toByteArray_query (s : Student) (sz : Nat) :
    s.toByteArray none sz = .ret (Student.toByteArray.szcbData s) none := rfl

theorem Student.student_toByteArray_fill (s : Student) (buf : List Byte) (sz : Nat) (h : s.inMemory)
    (hsz : s.encodedSize ≤ sz) (hbuf : s.encodedSize ≤ buf.length) :
    s.toByteArray (some buf) sz =
      .ret s.encodedSize (some (s.wire ++ buf.drop s.encodedSize)) := by
  unfold Student.toByteArray
  simp only [s.student_szcbData_eq h, ge_iff_le, hsz, if_true, s.student_fill_eq buf h hbuf]
  rw [if_pos (toSizeT_natCast (by unfold Student.inMemory at h; omega))]

theorem read_aligned_double_step {v p pEnd : Nat} {mem r : List Byte}
    (h : mem.drop p = slot sizeof_double v ++ r) (hp : p + 8 ≤ pEnd) :
    read_aligned_double mem p pEnd =
      if (!isfinite (v % 256 ^ 8)) = true then .error .brk else .ok (p + 8, v % 256 ^ 8) := by
  unfold read_aligned_double
  rw [read_aligned_step (show 8 ≤ 8 by decide) aligned_eight h hp]

/-- What the decoder body computes on the wire image of `s` (with raw `bool`
byte `b`), followed by arbitrary bytes: the validator's checks in order, then
success with exactly the image consumed. -/
theorem Student.body_wireWith (self s : Student) (b : Nat) (rest : List Byte) (sz : Nat)
    (hmem : s.inMemory) (hlen : s.encodedSize ≤ sz) (hsz : sz < 2 ^ 63) :
    Student.fromByteArray.body self (some (s.wireWith b ++ rest)) sz =
      if rawToInt (intToRaw s.nAge % 256 ^ 4) ≠ 0 ∧
          (rawToInt (intToRaw s.nAge % 256 ^ 4) < MIN_ALLOWED_AGE ∨
            rawToInt (intToRaw s.nAge % 256 ^ 4) > MAX_ALLOWED_AGE) then .error .brk
      else if MAX_NAME_LEN_1 > 0 ∧ s.strGivenName.length > MAX_NAME_LEN_1 then .error .brk
      else if s.strGivenName.isEmpty = true then .error .brk
      else if MAX_NAME_LEN_1 > 0 ∧ s.strSecondName.length > MAX_NAME_LEN_1 then .error .brk
      else if MAX_NAME_LEN_1 > 0 ∧ s.strThirdName.length > MAX_NAME_LEN_1 then .error .brk
      else if s.attendance % 256 ^ 4 < AttendanceType.Unknown ∨
          s.attendance % 256 ^ 4 ≥ AttendanceType.MaxCount then .error .brk
      else if rawToBool (b % 256 ^ 1) ≠ true ∧ rawToBool (b % 256 ^ 1) ≠ false then .error .brk
      else if (!isfinite (s.fPerformanceScore % 256 ^ 8)) = true then .error .brk
      else .ok (s.encodedSize,
        { nAge := rawToInt (intToRaw s.nAge % 256 ^ 4),
          strGivenName := s.strGivenName, strSecondName := s.strSecondName,
          strThirdName := s.strThirdName, attendance := s.attendance % 256 ^ 4,
          bSuspended := rawToBool (b % 256 ^ 1),
          fPerformanceScore := s.fPerformanceScore % 256 ^ 8, strNotes := s.strNotes }) := by
  obtain ⟨h1, h2, h3, h4⟩ := s.student_encodedSize_parts hmem
  have l1 := strWire_length (show s.strGivenName.length ≤ 2 ^ 64 - 8 by omega)
  have l2 := strWire_length (show s.strSecondName.length ≤ 2 ^ 64 - 8 by omega)
  have l3 := strWire_length (show s.strThirdName.length ≤ 2 ^ 64 - 8 by omega)
  have l4 := strWire_length (show s.strNotes.length ≤ 2 ^ 64 - 8 by omega)
  have hes : s.encodedSize = 64 + roundUp8 s.strGivenName.length + roundUp8 s.strSecondName.length +
    roundUp8 s.strThirdName.length + roundUp8 s.strNotes.length := rfl
  have d0 : (s.wireWith b ++ rest).drop 0 = slot sizeof_int (intToRaw s.nAge) ++
      (strWire s.strGivenName ++ (strWire s.strSecondName ++ (strWire s.strThirdName ++
      (slot sizeof_AttendanceType s.attendance ++ (slot sizeof_bool b ++
      (slot sizeof_double s.fPerformanceScore ++ (strWire s.strNotes ++ rest))))))) := by
    simp only [List.drop_zero, Student.wireWith, List.append_assoc]
  have d1 := drop_step d0
  have d2 := drop_step d1
  have d3 := drop_step d2
  have d4 := drop_step d3
  have d5 := drop_step d4
  have d6 := drop_step d5
  have d7 := drop_step d6
  have s4 := slot_length (intToRaw s.nAge) (show 4 ≤ 8 by decide) aligned_four
  have s4a := slot_length s.attendance (show 4 ≤ 8 by decide) aligned_four
  have s1 := slot_length b (show 1 ≤ 8 by decide) aligned_one
  have s8 := slot_length s.fPerformanceScore (show 8 ≤ 8 by decide) aligned_eight
  rw [s4] at d1 d2 d3 d4 d5 d6 d7
  rw [s4a] at d5 d6 d7
  rw [s1] at d6 d7
  rw [s8] at d7
  have hnot : ¬ toIntPtr sz ≤ 0 := by rw [toIntPtr_of_lt hsz]; omega
  have hpos : 0 + 8 + (strWire s.strGivenName).length + (strWire s.strSecondName).length +
      (strWire s.strThirdName).length + 8 + 8 + 8 + (strWire s.strNotes).length =
      s.encodedSize := by omega
  unfold Student.fromByteArray.body
  simp only [if_neg hnot]
  rw [Nat.zero_add]
  rw [read_aligned_step (show 4 ≤ 8 by decide) aligned_four d0 (by omega)]
  simp only [ok_bind, ite_bind]
  rw [read_aligned_str_step _ h1 d1 (by omega)]
  simp only [ok_bind, ite_bind]
  rw [read_aligned_str_step _ h2 d2 (by omega)]
  simp only [ok_bind, ite_bind]
  rw [read_aligned_str_step _ h3 d3 (by omega)]
  simp only [ok_bind, ite_bind]
  rw [read_aligned_step (show 4 ≤ 8 by decide) aligned_four d4 (by omega)]
  simp only [ok_bind, ite_bind]
  rw [read_aligned_step (show 1 ≤ 8 by decide) aligned_one d5 (by omega)]
  simp only [ok_bind, ite_bind]
  rw [read_aligned_double_step d6 (by omega)]
  simp only [ok_bind, ite_bind]
  rw [read_aligned_str_step _ h4 d7 (by omega)]
  simp only [ok_bind, ite_bind, hpos, hlen, if_true, gt_iff_lt, Nat.lt_irrefl, false_and, if_false]

theorem Student.student_fromByteArray_wire (self s : Student) (rest : List Byte) (sz : Nat)
    (hv : s.valid) (hmem : s.inMemory) (hlen : s.encodedSize ≤ sz) (hsz : sz < 2 ^ 63) :
    Student.fromByteArray self (some (s.wire ++ rest)) sz = .ret s.encodedSize s := by
  obtain ⟨hage, hg, hgl, hsl, htl, hatt, hsc, hfin⟩ := hv
  have e1 : rawToInt (intToRaw s.nAge % 256 ^ 4) = s.nAge := by
    rw [Nat.mod_eq_of_lt (by have := intToRaw_lt s.nAge; omega)]
    exact rawToInt_intToRaw (by omega) (by omega)
  have e2 : s.attendance % 256 ^ 4 = s.attendance := Nat.mod_eq_of_lt (by omega)
  have e3 : s.fPerformanceScore % 256 ^ 8 = s.fPerformanceScore := Nat.mod_eq_of_lt (by omega)
  have e4 : (if s.bSuspended = true then 1 else 0) % 256 ^ 1 = if s.bSuspended = true then 1 else 0 := by
    split <;> rfl
  have c1 : ¬ (s.nAge ≠ 0 ∧ (s.nAge < MIN_ALLOWED_AGE ∨ s.nAge > MAX_ALLOWED_AGE)) := by
    unfold MIN_ALLOWED_AGE MAX_ALLOWED_AGE; omega
  have c2 : ¬ (MAX_NAME_LEN_1 > 0 ∧ s.strGivenName.length > MAX_NAME_LEN_1) := by
    unfold MAX_NAME_LEN_1; omega
  have c3 : ¬ (s.strGivenName.isEmpty = true) := by
    rw [List.isEmpty_iff]; exact hg
  have c4 : ¬ (MAX_NAME_LEN_1 > 0 ∧ s.strSecondName.length > MAX_NAME_LEN_1) := by
    unfold MAX_NAME_LEN_1; omega
  have c5 : ¬ (MAX_NAME_LEN_1 > 0 ∧ s.strThirdName.length > MAX_NAME_LEN_1) := by
    unfold MAX_NAME_LEN_1; omega
  have c6 : ¬ (s.attendance < AttendanceType.Unknown ∨ s.attendance ≥ AttendanceType.MaxCount) := by
    unfold AttendanceType.Unknown AttendanceType.MaxCount; omega
  have c7 : ¬ (s.bSuspended ≠ true ∧ s.bSuspended ≠ false) := by
    cases s.bSuspended <;> simp
  have c8 : ¬ ((!isfinite s.fPerformanceScore) = true) := by simp [hfin]
  have e5 : rawToBool (if s.bSuspended = true then 1 else 0) = s.bSuspended := by
    cases s.bSuspended <;> rfl
  unfold Student.fromByteArray Student.wire
  rw [Student.body_wireWith self s _ rest sz hmem hlen hsz]
  simp only [e1, e2, e3, e4, e5, if_neg c1, if_neg c2, if_neg c3, if_neg c4, if_neg c5, if_neg c6,
    if_neg c7, if_neg c8]

/-! ## Class records: sizes, fill mode, decoding of a wire image -/

theorem studentsSize_inMemory {l : List Student} {m : Nat} (h : studentsSize l ≤ m) (hm : m < 2 ^ 63) :
    ∀ s ∈ l, s.inMemory := by
  induction l with
  | nil => simp
  | cons a l ih =>
    simp only [studentsSize] at h
    intro s hs
    rcases List.mem_cons.mp hs with rfl | hs
    · unfold Student.inMemory; omega
    · exact ih (by omega) s hs

theorem wireStudents_length {l : List Student} (h : studentsSize l < 2 ^ 63) :
    (wireStudents l).length = studentsSize l := by
  induction l with
  | nil => rfl
  | cons a l ih =>
    simp only [studentsSize] at h
    simp only [wireStudents, studentsSize, List.length_append]
    rw [ih (by omega), a.student_wire_length (by unfold Student.inMemory; omega)]

theorem studentsSize_ge (l : List Student) : 64 * l.length ≤ studentsSize l := by
  induction l with
  | nil => simp [studentsSize]
  | cons a l ih =>
    have := a.student_encodedSize_ge
    simp only [studentsSize, List.length_cons]
    omega

theorem foldl_szcbData (l : List Student) (acc : Nat) (h : acc + studentsSize l < 2 ^ 63) :
    l.foldl (fun szcbData itr => (szcbData + Student.toByteArray.szcbData itr) % 2 ^ 64) acc =
      acc + studentsSize l := by
  induction l generalizing acc with
  | nil => simp [studentsSize]
  | cons a l ih =>
    simp only [studentsSize] at h
    simp only [List.foldl_cons, studentsSize]
    rw [a.student_szcbData_eq (by unfold Student.inMemory; omega), Nat.mod_eq_of_lt (by omega),
      ih _ (by omega)]
    omega

theorem MyClass.encodedSize_parts (R : MyClass) (h : R.inMemory) :
    R.strName.length < 2 ^ 63 ∧ R.strNotes.length < 2 ^ 63 ∧ studentsSize R.students < 2 ^ 63 := by
  unfold MyClass.inMemory MyClass.encodedSize at h
  have h1 := roundUp8_ge R.strName.length
  have h2 := roundUp8_ge R.strNotes.length
  omega

theorem MyClass.szcbData_eq (R : MyClass) (h : R.inMemory) :
    MyClass.toByteArray.szcbData R = R.encodedSize := by
  obtain ⟨h1, h2, h3⟩ := R.encodedSize_parts h
  unfold MyClass.inMemory MyClass.encodedSize at h
  unfold MyClass.toByteArray.szcbData
  rw [aligned_sizeof_str_eq h1, aligned_sizeof_str_eq h2, aligned_four, aligned_eight,
    Nat.mod_eq_of_lt (by omega), foldl_szcbData _ _ (by omega)]
  unfold MyClass.encodedSize
  omega

theorem MyClass.wire_length (R : MyClass) (h : R.inMemory) : R.wire.length = R.encodedSize := by
  obtain ⟨h1, h2, h3⟩ := R.encodedSize_parts h
  unfold MyClass.wire MyClass.encodedSize
  simp only [List.length_append, strWire_length (show R.strName.length ≤ 2 ^ 64 - 8 by omega),
    strWire_length (show R.strNotes.length ≤ 2 ^ 64 - 8 by omega),
    slot_length _ (show 4 ≤ 8 by decide) aligned_four,
    slot_length _ (show 8 ≤ 8 by decide) aligned_eight, wireStudents_length h3]
  omega

theorem drop_replicate_append (m e : Nat) (tail : List Byte) (h : e ≤ m) :
    (List.replicate m (0 : Byte) ++ tail).drop e = List.replicate (m - e) 0 ++ tail := by
  rw [List.drop_append_of_le_length (by simp; omega), List.drop_replicate]

theorem MyClass.fill_loop (l : List Student) (W tail : List Byte) (m pEnd : Nat)
    (hl : studentsSize l ≤ m) (hm : pEnd < 2 ^ 63) (hE : pEnd = W.length + m) :
    MyClass.toByteArray.loop pEnd l (W ++ (List.replicate m 0 ++ tail)) W.length =
      .ok ((W ++ wireStudents l) ++ (List.replicate (m - studentsSize l) 0 ++ tail),
        (W ++ wireStudents l).length) := by
  induction l generalizing W m with
  | nil => simp [MyClass.toByteArray.loop, wireStudents, studentsSize]
  | cons a l ih =>
    simp only [studentsSize] at hl
    have ha : a.inMemory := by unfold Student.inMemory; omega
    have hge := a.student_encodedSize_ge
    have e1 : toSizeT ((pEnd : Int) - (W.length : Int)) = m := by
      rw [hE, toSizeT_sub (by omega) (by omega)]; omega
    unfold MyClass.toByteArray.loop
    rw [List.drop_left, e1, a.student_toByteArray_fill _ m ha (by omega) (by simp; omega)]
    simp only [Option.getD_some, List.take_left]
    rw [if_neg (by omega), drop_replicate_append _ _ _ (by omega)]
    have e2 : W.length + a.encodedSize = (W ++ a.wire).length := by
      rw [List.length_append, a.student_wire_length ha]
    rw [e2, ← List.append_assoc W a.wire, ih (W ++ a.wire) (m - a.encodedSize) (by omega)
      (by rw [hE, ← e2]; omega)]
    simp only [wireStudents, studentsSize, List.append_assoc, Nat.sub_sub]


theorem MyClass.fill_eq (R : MyClass) (buf : List Byte) (h : R.inMemory)
    (hbuf : R.encodedSize ≤ buf.length) :
    MyClass.toByteArray.fill R buf R.encodedSize =
      .ok (R.wire ++ buf.drop R.encodedSize, R.encodedSize) := by
  obtain ⟨h1, h2, h3⟩ := R.encodedSize_parts h
  have l1 := strWire_length (show R.strName.length ≤ 2 ^ 64 - 8 by omega)
  have l2 := strWire_length (show R.strNotes.length ≤ 2 ^ 64 - 8 by omega)
  have hw := R.wire_length h
  have hsz : R.encodedSize = 32 + roundUp8 R.strName.length + roundUp8 R.strNotes.length +
    studentsSize R.students := rfl
  have hmem : R.encodedSize < 2 ^ 63 := h
  unfold MyClass.toByteArray.fill
  dsimp only
  rw [memset_zero buf _ hbuf]
  simp only [ok_bind]
  rw [copy_aligned_first _ _ (show 4 ≤ 8 by decide) aligned_four (by omega)]
  simp only [ok_bind]
  rw [copy_aligned_str_step _ _ _ h1 (by omega)]
  simp only [ok_bind]
  rw [copy_aligned_step _ _ _ (show 8 ≤ 8 by decide) aligned_eight (by omega)]
  simp only [ok_bind]
  rw [MyClass.fill_loop _ _ _ _ _ (by omega) (by rw [Nat.zero_add]; exact hmem) (by
    simp only [List.length_append, l1, slot_length _ (show 4 ≤ 8 by decide) aligned_four,
      slot_length _ (show 8 ≤ 8 by decide) aligned_eight]
    omega)]
  simp only [ok_bind]
  rw [copy_aligned_str_step _ _ _ h2 (by omega)]
  simp only [ok_bind, pure, Except.pure]
  have hz : R.encodedSize - 8 - (strWire R.strName).length - 8 - studentsSize R.students -
      (strWire R.strNotes).length = 0 := by omega
  rw [hz]
  simp only [List.replicate_zero, List.nil_append]
  rw [← hw]
  rfl

theorem MyClass.toByteArray_query (R : MyClass) (sz : Nat) :
    R.toByteArray none sz = .ret (MyClass.toByteArray.szcbData R) none := rfl

theorem MyClass.toByteArray_fill (R : MyClass) (buf : List Byte) (sz : Nat) (h : R.inMemory)
    (hsz : R.encodedSize ≤ sz) (hbuf : R.encodedSize ≤ buf.length) :
    R.toByteArray (some buf) sz =
      .ret R.encodedSize (some (R.wire ++ buf.drop R.encodedSize)) := by
  unfold MyClass.toByteArray
  simp only [R.szcbData_eq h, ge_iff_le, hsz, if_true, R.fill_eq buf h hbuf]
  rw [if_pos (toSizeT_natCast (by unfold MyClass.inMemory at h; omega))]

/-- Decoding the images of valid students: the loop consumes them one by one
and goes on with the remaining count. -/
theorem MyClass.loop_wire (mem : List Byte) (pEnd : Nat) (l : List Student) (k : Nat)
    (hv : ∀ s ∈ l, s.valid) (hEnd : pEnd < 2 ^ 63) :
    ∀ (st : Student) (pS : Nat) (acc : List Student) (rest : List Byte),
      mem.drop pS = wireStudents l ++ rest → pS + studentsSize l ≤ pEnd →
      ∃ st2, MyClass.fromByteArray.loop mem pEnd (l.length + k) st pS acc =
        MyClass.fromByteArray.loop mem pEnd k st2 (pS + studentsSize l) (acc ++ l) := by
  induction l with
  | nil =>
    intro st pS acc rest _ _
    exact ⟨st, by simp [studentsSize]⟩
  | cons a l ih =>
    intro st pS acc rest hd hp
    simp only [studentsSize] at hp
    have ha : a.inMemory := by unfold Student.inMemory; omega
    have hge := a.student_encodedSize_ge
    have hd1 : mem.drop pS = a.wire ++ (wireStudents l ++ rest) := by
      rw [hd, wireStudents, List.append_assoc]
    have hd2 := drop_step hd1
    rw [a.student_wire_length ha] at hd2
    obtain ⟨st2, h2⟩ := ih (fun s hs => hv s (List.mem_cons_of_mem _ hs)) a (pS + a.encodedSize)
      (acc ++ [a]) rest hd2 (by omega)
    refine ⟨st2, ?_⟩
    rw [show (a :: l).length + k = (l.length + k) + 1 by simp; omega]
    rw [MyClass.fromByteArray.loop]
    rw [hd1, toSizeT_sub (by omega) (by omega),
      Student.student_fromByteArray_wire st a _ _ (hv a (List.mem_cons_self _ _)) ha (by omega) (by omega)]
    simp only []
    rw [if_neg (by omega), h2]
    simp only [studentsSize, List.append_assoc, List.singleton_append, Nat.add_assoc]

theorem wireStudents_append (l1 l2 : List Student) :
    wireStudents (l1 ++ l2) = wireStudents l1 ++ wireStudents l2 := by
  induction l1 with
  | nil => rfl
  | cons a l ih =>
    show a.wire ++ wireStudents (l ++ l2) = (a.wire ++ wireStudents l) ++ wireStudents l2
    rw [ih, List.append_assoc]

theorem studentsSize_append (l1 l2 : List Student) :
    studentsSize (l1 ++ l2) = studentsSize l1 + studentsSize l2 := by
  induction l1 with
  | nil => simp [studentsSize]
  | cons a l ih =>
    show a.encodedSize + studentsSize (l ++ l2) = (a.encodedSize + studentsSize l) + studentsSize l2
    rw [ih, Nat.add_assoc]

theorem MyClass.wire_drop_students (R : MyClass) (rest : List Byte) :
    (R.wire ++ rest).drop R.studentsOffset =
      wireStudents R.students ++ (strWire R.strNotes ++ rest) := by
  have d0 : (R.wire ++ rest).drop 0 = slot sizeof_int (intToRaw R.nYearEstablished) ++
      (strWire R.strName ++ (slot sizeof_size_t R.students.length ++
      (wireStudents R.students ++ (strWire R.strNotes ++ rest)))) := by
    simp only [List.drop_zero, MyClass.wire, List.append_assoc]
  have d3 := drop_step (drop_step (drop_step d0))
  rw [slot_length (intToRaw R.nYearEstablished) (show 4 ≤ 8 by decide) aligned_four,
    slot_length R.students.length (show 8 ≤ 8 by decide) aligned_eight] at d3
  exact d3

/-- The decoder body on the wire image of a record with a valid year and name:
everything up to the student loop succeeds, so the result is decided by the
loop and the notes that follow. -/
theorem MyClass.body_wire_of_loop (self R : MyClass) (rest : List Byte) (sz : Nat)
    (hmem : R.inMemory) (hlen : R.encodedSize ≤ sz) (hsz : sz < 2 ^ 63)
    (hyear : R.nYearEstablished = 0 ∨ (1000 ≤ R.nYearEstablished ∧ R.nYearEstablished ≤ 2100))
    (hname : R.strName ≠ []) (hnl : R.strName.length ≤ 256)
    (res : Except Stop (Nat × List Student))
    (hloop : MyClass.fromByteArray.loop (R.wire ++ rest) sz R.students.length {}
      R.studentsOffset [] = res) :
    MyClass.fromByteArray.body self (some (R.wire ++ rest)) sz =
      match res with
      | .error e => .error e
      | .ok (pS, students) =>
        match read_aligned_str (R.wire ++ rest) pS sz 0 with
        | .error e => .error e
        | .ok (pS, s) =>
          if pS ≤ sz then .ok (pS, MyClass.mk R.nYearEstablished R.strName students s)
          else .error .fastfail := by
  obtain ⟨h1, h2, h3⟩ := R.encodedSize_parts hmem
  have l1 := strWire_length (show R.strName.length ≤ 2 ^ 64 - 8 by omega)
  have l2 := strWire_length (show R.strNotes.length ≤ 2 ^ 64 - 8 by omega)
  have hes : R.encodedSize = 32 + roundUp8 R.strName.length + roundUp8 R.strNotes.length +
    studentsSize R.students := rfl
  have d0 : (R.wire ++ rest).drop 0 = slot sizeof_int (intToRaw R.nYearEstablished) ++
      (strWire R.strName ++ (slot sizeof_size_t R.students.length ++
      (wireStudents R.students ++ (strWire R.strNotes ++ rest)))) := by
    simp only [List.drop_zero, MyClass.wire, List.append_assoc]
  have d1 := drop_step d0
  have d2 := drop_step d1
  have s4 := slot_length (intToRaw R.nYearEstablished) (show 4 ≤ 8 by decide) aligned_four
  rw [s4] at d1 d2
  have hnot : ¬ toIntPtr sz ≤ 0 := by rw [toIntPtr_of_lt hsz]; omega
  have hcnt := studentsSize_ge R.students
  have hc : R.students.length % 256 ^ 8 = R.students.length := Nat.mod_eq_of_lt (by omega)
  have hc2 : ¬ toIntPtr R.students.length < 0 := by
    rw [toIntPtr_of_lt (by omega)]; omega
  have e1 : rawToInt (intToRaw R.nYearEstablished % 256 ^ 4) = R.nYearEstablished := by
    rw [Nat.mod_eq_of_lt (by have := intToRaw_lt R.nYearEstablished; omega)]
    exact rawToInt_intToRaw (by omega) (by omega)
  have c1 : ¬ (R.nYearEstablished ≠ 0 ∧
      (R.nYearEstablished < MIN_ALLOWED_YEAR ∨ R.nYearEstablished > MAX_ALLOWED_YEAR)) := by
    unfold MIN_ALLOWED_YEAR MAX_ALLOWED_YEAR; omega
  have c2 : ¬ (MAX_NAME_LEN_2 > 0 ∧ R.strName.length > MAX_NAME_LEN_2) := by
    unfold MAX_NAME_LEN_2; omega
  have c3 : ¬ (R.strName.isEmpty = true) := by
    rw [List.isEmpty_iff]; exact hname
  unfold MyClass.studentsOffset at hloop
  unfold MyClass.fromByteArray.body
  simp only [if_neg hnot]
  rw [Nat.zero_add]
  rw [read_aligned_step (show 4 ≤ 8 by decide) aligned_four d0 (by omega)]
  simp only [ok_bind, ite_bind]
  rw [read_aligned_str_step _ h1 d1 (by omega)]
  simp only [ok_bind, ite_bind]
  rw [read_aligned_step (show 8 ≤ 8 by decide) aligned_eight d2 (by omega)]
  simp only [ok_bind, ite_bind, hc, if_neg hc2, e1, if_neg c1, if_neg c2, if_neg c3]
  rw [hloop]
  cases res with
  | error e => rfl
  | ok x =>
    obtain ⟨pS, students⟩ := x
    simp only [ok_bind]
    cases read_aligned_str (R.wire ++ rest) pS sz 0 with
    | error e => rfl
    | ok y => rfl

theorem MyClass.fromByteArray_wire (self R : MyClass) (rest : List Byte) (sz : Nat)
    (hv : R.valid) (hmem : R.inMemory) (hlen : R.encodedSize ≤ sz) (hsz : sz < 2 ^ 63) :
    MyClass.fromByteArray self (some (R.wire ++ rest)) sz = .ret R.encodedSize R := by
  obtain ⟨hyear, hname, hnl, hst⟩ := hv
  obtain ⟨h1, h2, h3⟩ := R.encodedSize_parts hmem
  have l1 := strWire_length (show R.strName.length ≤ 2 ^ 64 - 8 by omega)
  have l2 := strWire_length (show R.strNotes.length ≤ 2 ^ 64 - 8 by omega)
  have hes : R.encodedSize = 32 + roundUp8 R.strName.length + roundUp8 R.strNotes.length +
    studentsSize R.students := rfl
  have hoff : R.studentsOffset = 16 + (strWire R.strName).length := by
    unfold MyClass.studentsOffset; omega
  have hd := R.wire_drop_students rest
  obtain ⟨st2, hl⟩ := MyClass.loop_wire (R.wire ++ rest) sz R.students 0 hst hsz {}
    R.studentsOffset [] _ hd (by omega)
  rw [Nat.add_zero, MyClass.fromByteArray.loop] at hl
  have hd2 := drop_step hd
  rw [wireStudents_length h3] at hd2
  unfold MyClass.fromByteArray
  rw [MyClass.body_wire_of_loop self R rest sz hmem hlen hsz hyear hname hnl _ hl]
  simp only []
  rw [read_aligned_str_step _ h2 hd2 (by omega)]
  have hpos : R.studentsOffset + studentsSize R.students + (strWire R.strNotes).length =
      R.encodedSize := by omega
  simp only [hpos, hlen, if_true, gt_iff_lt, Nat.lt_irrefl, false_and, if_false, List.nil_append]

/-! ## Inversion of the decoder on arbitrary input -/

theorem bind_eq_ok {α β : Type} {x : Except Stop α} {f : α → Except Stop β} {b : β}
    (h : (x >>= f) = .ok b) : ∃ a, x = .ok a ∧ f a = .ok b := by
  cases x with
  | error e => cases h
  | ok a => exact ⟨a, rfl, h⟩

theorem ite_error_eq_ok {β : Type} {c : Prop} [Decidable c] {e : Stop} {y : Except Stop β} {b : β}
    (h : (if c then .error e else y) = .ok b) : ¬ c ∧ y = .ok b := by
  by_cases hc : c
  · rw [if_pos hc] at h; cases h
  · rw [if_neg hc] at h; exact ⟨hc, h⟩

theorem ite_ok_eq_ok {β : Type} {c : Prop} [Decidable c] {e : Stop} {a b : β}
    (h : (if c then (Except.ok a : Except Stop β) else .error e) = .ok b) : c ∧ a = b := by
  by_cases hc : c
  · rw [if_pos hc] at h; cases h; exact ⟨hc, rfl⟩
  · rw [if_neg hc] at h; cases h

theorem fromBytes_lt (bs : List Byte) : fromBytes bs < 256 ^ bs.length := by
  induction bs with
  | nil => simp [fromBytes]
  | cons b bs ih =>
    have := b.isLt
    simp only [fromBytes, List.length_cons, pow_succ]
    omega

theorem load_length {mem bs : List Byte} {p n : Nat} (h : load mem p n = some bs) :
    bs.length = n ∧ p + n ≤ mem.length := by
  unfold load at h
  split at h
  · cases h
    simp only [List.length_take, List.length_drop]
    omega
  · cases h

/-- What a successful `read_aligned` tells: the slot was inside the span and
the value fits the type. -/
theorem read_aligned_ok {k p pEnd p2 v : Nat} {mem : List Byte}
    (h : read_aligned k mem p pEnd = .ok (p2, v)) :
    p2 = p + aligned k ∧ p2 ≤ pEnd ∧ v < 256 ^ k := by
  unfold read_aligned at h
  simp only at h
  split at h
  · cases h
  · split at h
    · cases h
    · rename_i bs hbs
      cases h
      obtain ⟨hl, _⟩ := load_length hbs
      have := fromBytes_lt bs
      rw [hl] at this
      exact ⟨rfl, by omega, this⟩

theorem read_aligned_double_ok {p pEnd p2 v : Nat} {mem : List Byte}
    (h : read_aligned_double mem p pEnd = .ok (p2, v)) :
    p2 = p + 8 ∧ p2 ≤ pEnd ∧ v < 2 ^ 64 ∧ isfinite v = true := by
  unfold read_aligned_double at h
  split at h
  · cases h
  · rename_i q s hr
    split at h
    · cases h
    · rename_i hf
      cases h
      obtain ⟨ha, hb, hc⟩ := read_aligned_ok hr
      rw [aligned_eight] at ha
      refine ⟨ha, hb, by simpa using hc, by simpa using hf⟩

/-- What a successful `read_aligned_str` tells. The advanced pointer is only
known to be at most 7 bytes past the end of the span. -/
theorem read_aligned_str_ok {p pEnd p2 maxLen : Nat} {mem s : List Byte}
    (h : read_aligned_str mem p pEnd maxLen = .ok (p2, s)) :
    p2 = p + 8 + roundUp8 s.length ∧ p + 8 + s.length ≤ pEnd ∧ s.length < 2 ^ 63 ∧
      (maxLen = 0 ∨ s.length ≤ maxLen) := by
  unfold read_aligned_str at h
  split at h
  · cases h
  · rename_i q sz hr
    obtain ⟨ha, hb, hc⟩ := read_aligned_ok hr
    rw [aligned_eight] at ha
    split at h
    · cases h
    · rename_i hcond
      split at h
      · cases h
      · rename_i bs hbs
        obtain ⟨hl, _⟩ := load_length hbs
        simp only at h
        split at h
        · cases h
        · rename_i hmax
          cases h
          have hsz : sz < 2 ^ 64 := by simpa using hc
          have hn : ¬ toIntPtr sz < 0 := fun hx => hcond (Or.inl hx)
          rw [toIntPtr_neg_iff, Nat.mod_eq_of_lt hsz] at hn
          have hm : sz * sizeof_STR_CHAR % 2 ^ 64 = sz := by
            rw [Nat.mul_one]; exact Nat.mod_eq_of_lt hsz
          rw [hm] at hcond ⊢
          rw [aligned_eq_roundUp8 (by omega), hl]
          refine ⟨by omega, by omega, by omega, by omega⟩

theorem Student.student_body_ok {self r : Student} {pData : Option (List Byte)} {sz n : Nat}
    (h : Student.fromByteArray.body self pData sz = .ok (n, r)) :
    n = r.encodedSize ∧ n ≤ sz ∧ r.valid := by
  unfold Student.fromByteArray.body at h
  split at h
  · cases h
  · rename_i mem
    obtain ⟨_, h⟩ := ite_error_eq_ok h
    simp only [Nat.zero_add] at h
    obtain ⟨⟨p1, v1⟩, e1, h⟩ := bind_eq_ok h
    obtain ⟨c1, h⟩ := ite_error_eq_ok h
    obtain ⟨⟨p2, v2⟩, e2, h⟩ := bind_eq_ok h
    obtain ⟨c2, h⟩ := ite_error_eq_ok h
    obtain ⟨⟨p3, v3⟩, e3, h⟩ := bind_eq_ok h
    obtain ⟨⟨p4, v4⟩, e4, h⟩ := bind_eq_ok h
    obtain ⟨⟨p5, v5⟩, e5, h⟩ := bind_eq_ok h
    obtain ⟨c5, h⟩ := ite_error_eq_ok h
    obtain ⟨⟨p6, v6⟩, e6, h⟩ := bind_eq_ok h
    obtain ⟨c6, h⟩ := ite_error_eq_ok h
    obtain ⟨⟨p7, v7⟩, e7, h⟩ := bind_eq_ok h
    obtain ⟨⟨p8, v8⟩, e8, h⟩ := bind_eq_ok h
    obtain ⟨c8, h⟩ := ite_ok_eq_ok h
    cases h
    obtain ⟨a1, b1, r1⟩ := read_aligned_ok e1
    obtain ⟨a2, b2, r2, m2⟩ := read_aligned_str_ok e2
    obtain ⟨a3, b3, r3, m3⟩ := read_aligned_str_ok e3
    obtain ⟨a4, b4, r4, m4⟩ := read_aligned_str_ok e4
    obtain ⟨a5, b5, r5⟩ := read_aligned_ok e5
    obtain ⟨a6, b6, r6⟩ := read_aligned_ok e6
    obtain ⟨a7, b7, r7, f7⟩ := read_aligned_double_ok e7
    obtain ⟨a8, b8, r8, m8⟩ := read_aligned_str_ok e8
    rw [aligned_four] at a1 a5
    rw [aligned_one] at a6
    have q2 := roundUp8_mod v2.length
    have q3 := roundUp8_mod v3.length
    have q4 := roundUp8_mod v4.length
    have q8 := roundUp8_mod v8.length
    simp only at c1 c2 c5 c6 c8
    unfold MIN_ALLOWED_AGE MAX_ALLOWED_AGE at c1
    unfold AttendanceType.Unknown AttendanceType.MaxCount at c5
    unfold MAX_NAME_LEN_1 at m2 m3 m4
    refine ⟨by unfold Student.encodedSize; simp only; omega, c8, ?_⟩
    unfold Student.valid
    simp only
    refine ⟨by omega, ?_, by omega, by omega, by omega, by omega, r7, f7⟩
    intro hnil
    rw [hnil] at c2
    simp at c2


/-- The two ways `Student::fromByteArray` returns: 0 with the struct reset, or
the number of bytes consumed with a validated struct. -/
theorem Student.student_fromByteArray_ret {self r : Student} {pData : Option (List Byte)} {sz n : Nat}
    (h : Student.fromByteArray self pData sz = .ret n r) :
    (n = 0 ∧ r = {}) ∨
      (Student.fromByteArray.body self pData sz = .ok (n, r) ∧ n = r.encodedSize ∧ n ≤ sz ∧
        r.valid) := by
  unfold Student.fromByteArray at h
  split at h
  · rename_i m t hb
    cases h
    exact Or.inr ⟨hb, Student.student_body_ok hb⟩
  · cases h; exact Or.inl ⟨rfl, rfl⟩
  · cases h
  · cases h

theorem bind_ne_oob {α β : Type} {x : Except Stop α} {f : α → Except Stop β}
    (hx : x ≠ .error .outOfSpan) (hf : ∀ a, x = .ok a → f a ≠ .error .outOfSpan) :
    (x >>= f) ≠ .error .outOfSpan := by
  cases x with
  | error e =>
    intro h
    have he : e = Stop.outOfSpan := by
      have h2 : (Except.error e : Except Stop β) = .error .outOfSpan := h
      cases h2; rfl
    exact hx (by rw [he])
  | ok a => exact hf a rfl

theorem ite_ne_oob {β : Type} {c : Prop} [Decidable c] {y : Except Stop β}
    (hy : ¬ c → y ≠ .error .outOfSpan) :
    (if c then .error .brk else y) ≠ .error .outOfSpan := by
  by_cases hc : c
  · rw [if_pos hc]; exact fun h => by cases h
  · rw [if_neg hc]; exact hy hc

theorem read_aligned_ne_oob {k : Nat} (mem : List Byte) (p pEnd : Nat) (hk : k ≤ aligned k)
    (hE : pEnd ≤ mem.length) : read_aligned k mem p pEnd ≠ .error .outOfSpan := by
  unfold read_aligned load
  simp only
  split
  · exact fun h => by cases h
  · rw [if_pos (by omega)]
    exact fun h => by cases h

theorem read_aligned_double_ne_oob (mem : List Byte) (p pEnd : Nat)
    (hE : pEnd ≤ mem.length) : read_aligned_double mem p pEnd ≠ .error .outOfSpan := by
  unfold read_aligned_double
  split
  · rename_i e he
    intro h
    cases h
    exact read_aligned_ne_oob mem p pEnd (by decide) hE he
  · split <;> exact fun h => by cases h

theorem read_aligned_str_ne_oob (mem : List Byte) (p pEnd maxLen : Nat)
    (hE : pEnd ≤ mem.length) : read_aligned_str mem p pEnd maxLen ≠ .error .outOfSpan := by
  unfold read_aligned_str
  split
  · rename_i e he
    intro h
    cases h
    exact read_aligned_ne_oob mem p pEnd (by decide) hE he
  · rename_i q sz hr
    split
    · exact fun h => by cases h
    · rename_i hcond
      have hsz : sz < 2 ^ 64 := by simpa using (read_aligned_ok hr).2.2
      have hm : sz * sizeof_STR_CHAR % 2 ^ 64 = sz := by
        rw [Nat.mul_one]; exact Nat.mod_eq_of_lt hsz
      rw [hm] at hcond
      unfold load
      rw [if_pos (by omega)]
      simp only
      split <;> exact fun h => by cases h

theorem Student.student_body_ne_oob (self : Student) (mem : List Byte) (sz : Nat) (hE : sz ≤ mem.length) :
    Student.fromByteArray.body self (some mem) sz ≠ .error .outOfSpan := by
  unfold Student.fromByteArray.body
  simp only [Nat.zero_add]
  refine ite_ne_oob fun _ => ?_
  refine bind_ne_oob (read_aligned_ne_oob _ _ _ (by decide) hE) fun _ _ => ?_
  refine ite_ne_oob fun _ => ?_
  refine bind_ne_oob (read_aligned_str_ne_oob _ _ _ _ hE) fun _ _ => ?_
  refine ite_ne_oob fun _ => ?_
  refine bind_ne_oob (read_aligned_str_ne_oob _ _ _ _ hE) fun _ _ => ?_
  refine bind_ne_oob (read_aligned_str_ne_oob _ _ _ _ hE) fun _ _ => ?_
  refine bind_ne_oob (read_aligned_ne_oob _ _ _ (by decide) hE) fun _ _ => ?_
  refine ite_ne_oob fun _ => ?_
  refine bind_ne_oob (read_aligned_ne_oob _ _ _ (by decide) hE) fun _ _ => ?_
  refine ite_ne_oob fun _ => ?_
  refine bind_ne_oob (read_aligned_double_ne_oob _ _ _ hE) fun _ _ => ?_
  refine bind_ne_oob (read_aligned_str_ne_oob _ _ _ _ hE) fun _ _ => ?_
  split <;> exact fun h => by cases h

theorem Student.student_fromByteArray_ne_oob (self : Student) (pData : Option (List Byte)) (sz : Nat)
    (hE : ∀ mem, pData = some mem → sz ≤ mem.length) :
    Student.fromByteArray self pData sz ≠ .outOfSpan := by
  unfold Student.fromByteArray
  split
  · exact fun h => by cases h
  · exact fun h => by cases h
  · exact fun h => by cases h
  · rename_i hb
    cases pData with
    | none => unfold Student.fromByteArray.body at hb; cases hb
    | some mem => exact absurd hb (Student.student_body_ne_oob self mem sz (hE mem rfl))

theorem toSizeT_sub_le {a b : Nat} (h : b ≤ a) : toSizeT ((a : Int) - (b : Int)) ≤ a - b := by
  unfold toSizeT
  omega


/-- What a successful student loop tells: exactly `count` validated students
were appended and the pointer advanced by their encoded sizes, inside the span. -/
theorem MyClass.loop_ok (mem : List Byte) (pEnd : Nat) :
    ∀ (count : Nat) (st : Student) (pS : Nat) (acc : List Student) (pS2 : Nat) (l : List Student),
      MyClass.fromByteArray.loop mem pEnd count st pS acc = .ok (pS2, l) → pS ≤ pEnd →
      ∃ new, l = acc ++ new ∧ new.length = count ∧ (∀ s ∈ new, s.valid) ∧
        pS2 = pS + studentsSize new ∧ pS2 ≤ pEnd := by
  intro count
  induction count with
  | zero =>
    intro st pS acc pS2 l h hp
    rw [MyClass.fromByteArray.loop] at h
    cases h
    exact ⟨[], by simp, rfl, by simp, by simp [studentsSize], hp⟩
  | succ k ih =>
    intro st pS acc pS2 l h hp
    rw [MyClass.fromByteArray.loop] at h
    split at h
    · cases h
    · cases h
    · rename_i szcb st2 hs
      split at h
      · cases h
      · rename_i hne
        rcases Student.student_fromByteArray_ret hs with ⟨h0, _⟩ | ⟨_, hn, hle, hv⟩
        · exact absurd h0 hne
        · have hb := toSizeT_sub_le hp
          obtain ⟨new, e1, e2, e3, e4, e5⟩ := ih st2 (pS + szcb) (acc ++ [st2]) pS2 l h (by omega)
          refine ⟨st2 :: new, by simp [e1], by simp [e2], ?_, ?_, e5⟩
          · intro s hs
            rcases List.mem_cons.mp hs with rfl | hs
            · exact hv
            · exact e3 s hs
          · simp only [studentsSize]; omega

theorem MyClass.loop_ne_oob (mem : List Byte) (pEnd : Nat) (hE : pEnd ≤ mem.length) :
    ∀ (count : Nat) (st : Student) (pS : Nat) (acc : List Student), pS ≤ pEnd →
      MyClass.fromByteArray.loop mem pEnd count st pS acc ≠ .error .outOfSpan := by
  intro count
  induction count with
  | zero =>
    intro st pS acc _
    rw [MyClass.fromByteArray.loop]
    exact fun h => by cases h
  | succ k ih =>
    intro st pS acc hp
    have hb := toSizeT_sub_le hp
    rw [MyClass.fromByteArray.loop]
    split
    · exact fun h => by cases h
    · rename_i hs
      exact absurd hs (Student.student_fromByteArray_ne_oob _ _ _ (by
        intro m hm
        cases hm
        rw [List.length_drop]
        omega))
    · rename_i szcb st2 hs
      split
      · exact fun h => by cases h
      · rename_i hne
        rcases Student.student_fromByteArray_ret hs with ⟨h0, _⟩ | ⟨_, hn, hle, hv⟩
        · exact absurd h0 hne
        · exact ih st2 (pS + szcb) _ (by omega)

theorem MyClass.body_ok {self R : MyClass} {pData : Option (List Byte)} {sz n : Nat}
    (h : MyClass.fromByteArray.body self pData sz = .ok (n, R)) :
    n = R.encodedSize ∧ n ≤ sz ∧ R.valid := by
  unfold MyClass.fromByteArray.body at h
  split at h
  · cases h
  · rename_i mem
    obtain ⟨_, h⟩ := ite_error_eq_ok h
    simp only [Nat.zero_add] at h
    obtain ⟨⟨p1, v1⟩, e1, h⟩ := bind_eq_ok h
    obtain ⟨c1, h⟩ := ite_error_eq_ok h
    obtain ⟨⟨p2, v2⟩, e2, h⟩ := bind_eq_ok h
    obtain ⟨c2, h⟩ := ite_error_eq_ok h
    obtain ⟨⟨p3, v3⟩, e3, h⟩ := bind_eq_ok h
    obtain ⟨c3, h⟩ := ite_error_eq_ok h
    obtain ⟨⟨p4, v4⟩, e4, h⟩ := bind_eq_ok h
    obtain ⟨⟨p5, v5⟩, e5, h⟩ := bind_eq_ok h
    obtain ⟨c5, h⟩ := ite_ok_eq_ok h
    cases h
    obtain ⟨a1, b1, r1⟩ := read_aligned_ok e1
    obtain ⟨a2, b2, r2, m2⟩ := read_aligned_str_ok e2
    obtain ⟨a3, b3, r3⟩ := read_aligned_ok e3
    obtain ⟨new, n1, n2, n3, n4, n5⟩ := MyClass.loop_ok mem sz _ _ _ _ _ _ e4 b3
    obtain ⟨a5, b5, r5, m5⟩ := read_aligned_str_ok e5
    rw [aligned_four] at a1
    rw [aligned_eight] at a3
    simp only at c1 c2 c5
    simp only [List.nil_append] at n1
    subst n1
    unfold MIN_ALLOWED_YEAR MAX_ALLOWED_YEAR at c1
    unfold MAX_NAME_LEN_2 at m2
    refine ⟨by unfold MyClass.encodedSize; simp only; omega, c5, ?_⟩
    unfold MyClass.valid
    simp only
    refine ⟨by omega, ?_, by omega, n3⟩
    intro hnil
    rw [hnil] at c2
    simp at c2

theorem MyClass.fromByteArray_ret {self R : MyClass} {pData : Option (List Byte)} {sz n : Nat}
    (h : MyClass.fromByteArray self pData sz = .ret n R) :
    (n = 0 ∧ R = {}) ∨
      (MyClass.fromByteArray.body self pData sz = .ok (n, R) ∧ n = R.encodedSize ∧ n ≤ sz ∧
        R.valid) := by
  unfold MyClass.fromByteArray at h
  split at h
  · rename_i m t hb
    cases h
    exact Or.inr ⟨hb, MyClass.body_ok hb⟩
  · cases h; exact Or.inl ⟨rfl, rfl⟩
  · cases h
  · cases h

theorem MyClass.encodedSize_ge (R : MyClass) : 32 ≤ R.encodedSize := by
  unfold MyClass.encodedSize; omega

theorem MyClass.body_ne_oob (self : MyClass) (mem : List Byte) (sz : Nat) (hE : sz ≤ mem.length) :
    MyClass.fromByteArray.body self (some mem) sz ≠ .error .outOfSpan := by
  unfold MyClass.fromByteArray.body
  simp only [Nat.zero_add]
  refine ite_ne_oob fun _ => ?_
  refine bind_ne_oob (read_aligned_ne_oob _ _ _ (by decide) hE) fun _ _ => ?_
  refine ite_ne_oob fun _ => ?_
  refine bind_ne_oob (read_aligned_str_ne_oob _ _ _ _ hE) fun _ _ => ?_
  refine ite_ne_oob fun _ => ?_
  refine bind_ne_oob (read_aligned_ne_oob _ _ _ (by decide) hE) fun x hx => ?_
  refine ite_ne_oob fun _ => ?_
  obtain ⟨p3, v3⟩ := x
  refine bind_ne_oob (MyClass.loop_ne_oob mem sz hE _ _ _ _ (read_aligned_ok hx).2.1) fun _ _ => ?_
  refine bind_ne_oob (read_aligned_str_ne_oob _ _ _ _ hE) fun _ _ => ?_
  split <;> exact fun h => by cases h

theorem MyClass.fromByteArray_ne_oob (self : MyClass) (pData : Option (List Byte)) (sz : Nat)
    (hE : ∀ mem, pData = some mem → sz ≤ mem.length) :
    MyClass.fromByteArray self pData sz ≠ .outOfSpan := by
  unfold MyClass.fromByteArray
  split
  · exact fun h => by cases h
  · exact fun h => by cases h
  · exact fun h => by cases h
  · rename_i hb
    cases pData with
    | none => unfold MyClass.fromByteArray.body at hb; cases hb
    | some mem => exact absurd hb (MyClass.body_ne_oob self mem sz (hE mem rfl))

/-! ## Failing decodes of wire images -/

theorem Student.fromByteArray_bad_age (self s : Student) (rest : List Byte) (sz : Nat)
    (hmem : s.inMemory) (hlen : s.encodedSize ≤ sz) (hsz : sz < 2 ^ 63)
    (hint : -(2 ^ 31) ≤ s.nAge ∧ s.nAge < 2 ^ 31)
    (hage : s.nAge ≠ 0 ∧ (s.nAge < 10 ∨ 200 < s.nAge)) :
    Student.fromByteArray self (some (s.wire ++ rest)) sz = .ret 0 {} := by
  have e1 : rawToInt (intToRaw s.nAge % 256 ^ 4) = s.nAge := by
    rw [Nat.mod_eq_of_lt (by have := intToRaw_lt s.nAge; omega)]
    exact rawToInt_intToRaw hint.1 hint.2
  have c1 : s.nAge ≠ 0 ∧ (s.nAge < MIN_ALLOWED_AGE ∨ s.nAge > MAX_ALLOWED_AGE) := by
    unfold MIN_ALLOWED_AGE MAX_ALLOWED_AGE; omega
  unfold Student.fromByteArray Student.wire
  rw [Student.body_wireWith self s _ rest sz hmem hlen hsz]
  simp only [e1, if_pos c1]

theorem Student.fromByteArray_bad_attendance (self s : Student) (rest : List Byte) (sz : Nat)
    (hmem : s.inMemory) (hlen : s.encodedSize ≤ sz) (hsz : sz < 2 ^ 63)
    (ha : s.attendance < 2 ^ 32) (h7 : 7 ≤ s.attendance) :
    Student.fromByteArray self (some (s.wire ++ rest)) sz = .ret 0 {} := by
  have e2 : s.attendance % 256 ^ 4 = s.attendance := Nat.mod_eq_of_lt (by omega)
  have c6 : s.attendance < AttendanceType.Unknown ∨ s.attendance ≥ AttendanceType.MaxCount := by
    unfold AttendanceType.Unknown AttendanceType.MaxCount; omega
  unfold Student.fromByteArray Student.wire
  rw [Student.body_wireWith self s _ rest sz hmem hlen hsz]
  simp only [e2, if_pos c6]
  split_ifs <;> rfl

theorem query_eq_encodedSize {R : MyClass} {n : Nat} {o : Option (List Byte)} (hmem : R.inMemory)
    (h : R.toByteArray none 0 = .ret n o) : n = R.encodedSize := by
  rw [R.toByteArray_query, R.szcbData_eq hmem] at h
  cases h; rfl

theorem Student.student_query_eq_encodedSize {s : Student} {n : Nat} {o : Option (List Byte)}
    (hmem : s.inMemory) (h : s.toByteArray none 0 = .ret n o) : n = s.encodedSize := by
  rw [s.student_toByteArray_query, s.student_szcbData_eq hmem] at h
  cases h; rfl

/-! ## The claims -/

set_option maxRecDepth 100000

/-- C1. Round trip: for a record `R` that satisfies the validator and is an
object of the 64-bit process, filling a buffer of the size the size query
returned and decoding that buffer into a fresh record returns exactly that size
and leaves a record equal to `R`. -/
theorem roundtrip_valid_record (R : MyClass) (buf : List Byte) (hv : R.valid) (hmem : R.inMemory)
    (hbuf : R.toByteArray none 0 = .ret buf.length none) :
    ∃ E, R.toByteArray (some buf) buf.length = .ret buf.length (some E) ∧
      E.length = buf.length ∧
      MyClass.fromByteArray {} (some E) buf.length = .ret buf.length R := by
  have hn := query_eq_encodedSize hmem hbuf
  have hlt : R.encodedSize < 2 ^ 63 := hmem
  refine ⟨R.wire ++ buf.drop R.encodedSize, ?_, ?_, ?_⟩
  · rw [hn]; exact R.toByteArray_fill buf _ hmem (le_refl _) (by omega)
  · rw [List.length_append, List.length_drop, R.wire_length hmem]; omega
  · rw [hn]; exact MyClass.fromByteArray_wire {} R _ _ hv hmem (le_refl _) hlt

theorem roundtrip_valid_record_witness :
    scenarioClass.valid ∧ scenarioClass.inMemory ∧
      ∃ E, scenarioClass.toByteArray (some (List.replicate 136 0)) (List.replicate 136 (0 : Byte)).length
          = .ret (List.replicate 136 (0 : Byte)).length (some E) ∧
        E.length = (List.replicate 136 (0 : Byte)).length ∧
        MyClass.fromByteArray {} (some E) (List.replicate 136 (0 : Byte)).length =
          .ret (List.replicate 136 (0 : Byte)).length scenarioClass :=
  ⟨by decide, by decide,
    roundtrip_valid_record scenarioClass (List.replicate 136 0) (by decide) (by decide) (by decide)⟩

/-- C2. Fill mode returns the value of size-query mode: for a record (valid or
not) that is an object of the 64-bit process and a buffer at least as large as
the size query says, `toByteArray(buf, size)` returns that same size, so it
neither reaches a fatal branch nor writes outside the buffer. The same holds
for `Student::toByteArray`. -/
theorem fill_returns_query_size :
    (∀ (R : MyClass) (buf : List Byte) (size n : Nat), R.inMemory →
      R.toByteArray none 0 = .ret n none → n ≤ size → size ≤ buf.length →
      ∃ E, R.toByteArray (some buf) size = .ret n (some E)) ∧
    (∀ (s : Student) (buf : List Byte) (size n : Nat), s.inMemory →
      s.toByteArray none 0 = .ret n none → n ≤ size → size ≤ buf.length →
      ∃ E, s.toByteArray (some buf) size = .ret n (some E)) := by
  constructor
  · intro R buf size n hmem hq hs hb
    have hn := query_eq_encodedSize hmem hq
    subst hn
    exact ⟨_, R.toByteArray_fill buf size hmem hs (by omega)⟩
  · intro s buf size n hmem hq hs hb
    have hn := Student.student_query_eq_encodedSize hmem hq
    subst hn
    exact ⟨_, s.student_toByteArray_fill buf size hmem hs (by omega)⟩

theorem fill_returns_query_size_witness :
    (∃ E, scenarioAgeFive.toByteArray (some (List.replicate 200 7)) 150 = .ret 136 (some E)) ∧
    (∃ E, scenarioStudent.toByteArray (some (List.replicate 80 7)) 80 = .ret 80 (some E)) :=
  ⟨fill_returns_query_size.1 scenarioAgeFive (List.replicate 200 7) 150 136 (by decide) (by decide)
      (by decide) (by decide),
    fill_returns_query_size.2 scenarioStudent (List.replicate 80 7) 80 80 (by decide) (by decide)
      (by decide) (by decide)⟩

/-- C3. Atomic failure: whatever the input and the prior state of the target,
when `MyClass::fromByteArray` returns 0 the target is a default-constructed
`MyClass`; likewise for `Student::fromByteArray`. -/
theorem failure_resets_target :
    (∀ (self r : MyClass) (pData : Option (List Byte)) (szcbData : Nat),
      MyClass.fromByteArray self pData szcbData = .ret 0 r → r = {}) ∧
    (∀ (self r : Student) (pData : Option (List Byte)) (szcbData : Nat),
      Student.fromByteArray self pData szcbData = .ret 0 r → r = {}) := by
  constructor
  · intro self r pData sz h
    rcases MyClass.fromByteArray_ret h with ⟨_, hr⟩ | ⟨_, hn, _, _⟩
    · exact hr
    · have := r.encodedSize_ge; omega
  · intro self r pData sz h
    rcases Student.student_fromByteArray_ret h with ⟨_, hr⟩ | ⟨_, hn, _, _⟩
    · exact hr
    · have := r.student_encodedSize_ge; omega

theorem failure_resets_target_witness :
    MyClass.fromByteArray scenarioClass (some (scenarioClass.wire.take 131)) 131 = .ret 0 {} ∧
      ({} : MyClass) = {} ∧
    Student.fromByteArray scenarioStudent (some (scenarioStudent.wire.take 70)) 70 = .ret 0 {} ∧
      ({} : Student) = {} :=
  ⟨by decide,
    failure_resets_target.1 scenarioClass {} (some (scenarioClass.wire.take 131)) 131 (by decide),
    by decide,
    failure_resets_target.2 scenarioStudent {} (some (scenarioStudent.wire.take 70)) 70 (by decide)⟩

/-- C4. The fatal branch is reachable from input alone: on the 41-byte
`shortNotesInput` the class decoder ends in `__fastfail`, and on the 73-byte
`shortNotesStudentInput` the student decoder does, because `read_aligned_str`
checks the unpadded length against the end of the span and then advances by the
padded one. -/
theorem fatal_branch_reached :
    MyClass.fromByteArray {} (some shortNotesInput) shortNotesInput.length = .fastfail ∧
    Student.fromByteArray {} (some shortNotesStudentInput) shortNotesStudentInput.length =
      .fastfail ∧
    read_aligned_str shortNotesInput 32 41 0 = .ok (48, [65]) :=
  ⟨by decide, by decide, rfl⟩

/-- C5. Truncation is not always a clean failure: the concrete scenario record
is valid and encodes to 136 bytes, and decoding the first 135 of them ends in
`__fastfail` instead of returning 0. -/
theorem truncated_scenario_fatal :
    scenarioClass.valid ∧
    scenarioClass.toByteArray (some (List.replicate 136 0)) 136 =
      .ret 136 (some scenarioClass.wire) ∧
    MyClass.fromByteArray {} (some (scenarioClass.wire.take 135)) 135 = .fastfail ∧
    MyClass.fromByteArray {} (some (scenarioClass.wire.take 131)) 131 = .ret 0 {} := by
  decide

/-- C6. No read leaves the span: on every byte sequence, with the length given
truthfully, neither decoder ever gets `none` from a load, that is, every byte it
dereferences lies at an offset below the length of the sequence. -/
theorem no_read_outside_span (self : MyClass) (st : Student) (data : List Byte) :
    MyClass.fromByteArray self (some data) data.length ≠ .outOfSpan ∧
    Student.fromByteArray st (some data) data.length ≠ .outOfSpan :=
  ⟨MyClass.fromByteArray_ne_oob self _ _ (fun _ h => by cases h; exact le_refl _),
    Student.student_fromByteArray_ne_oob st _ _ (fun _ h => by cases h; exact le_refl _)⟩

/-- C7. Bytes consumed: a non-zero return value `n` on a byte sequence of length
`L` satisfies `1 ≤ n ≤ L`; an empty input, a null pointer, and a length whose
signed interpretation is not positive all return 0. -/
theorem bytes_consumed_bound :
    (∀ (self r : MyClass) (data : List Byte) (n : Nat),
      MyClass.fromByteArray self (some data) data.length = .ret n r → n ≠ 0 →
      1 ≤ n ∧ n ≤ data.length) ∧
    (∀ self : MyClass, MyClass.fromByteArray self (some []) 0 = .ret 0 {}) ∧
    (∀ (self : MyClass) (szcbData : Nat), MyClass.fromByteArray self none szcbData = .ret 0 {}) ∧
    (∀ (self : MyClass) (pData : Option (List Byte)) (szcbData : Nat), toIntPtr szcbData ≤ 0 →
      MyClass.fromByteArray self pData szcbData = .ret 0 {}) := by
  refine ⟨?_, ?_, ?_, ?_⟩
  · intro self r data n h hn
    rcases MyClass.fromByteArray_ret h with ⟨h0, _⟩ | ⟨_, _, hle, _⟩
    · exact absurd h0 hn
    · omega
  · intro self; rfl
  · intro self sz; rfl
  · intro self pData sz hs
    unfold MyClass.fromByteArray MyClass.fromByteArray.body
    cases pData with
    | none => rfl
    | some mem => simp only [if_pos hs]

theorem bytes_consumed_bound_witness :
    (1 ≤ 136 ∧ 136 ≤ scenarioClass.wire.length) ∧
    MyClass.fromByteArray scenarioClass (some scenarioClass.wire) (2 ^ 63) = .ret 0 {} :=
  ⟨bytes_consumed_bound.1 {} scenarioClass scenarioClass.wire 136 (by decide) (by decide),
    bytes_consumed_bound.2.2.2 scenarioClass (some scenarioClass.wire) (2 ^ 63) (by decide)⟩


/-- C8. Validator soundness: a successful `MyClass::fromByteArray` leaves a
record that satisfies the validator (year 0 or 1000..2100, name non-empty and at
most 256 chars, every student with age 0 or 10..200, non-empty given name of at
most 1024 chars, second and third name of at most 1024 chars). The string
bounds are inclusive and 0 means no limit: `read_aligned_str` on a well-placed
string of length `len` accepts it exactly when `maxLen = 0` or `len ≤ maxLen`,
and otherwise returns `false`. -/
theorem validator_soundness :
    (∀ (self R : MyClass) (data : List Byte) (n : Nat),
      MyClass.fromByteArray self (some data) data.length = .ret n R → n ≠ 0 → R.valid) ∧
    (∀ (mem s r : List Byte) (p pEnd maxLen : Nat), s.length < 2 ^ 63 →
      mem.drop p = strWire s ++ r → p + (strWire s).length ≤ pEnd →
      (read_aligned_str mem p pEnd maxLen = .ok (p + (strWire s).length, s) ↔
        (maxLen = 0 ∨ s.length ≤ maxLen)) ∧
      (¬ (maxLen = 0 ∨ s.length ≤ maxLen) → read_aligned_str mem p pEnd maxLen = .error .brk)) := by
  constructor
  · intro self R data n h hn
    rcases MyClass.fromByteArray_ret h with ⟨h0, _⟩ | ⟨_, _, _, hv⟩
    · exact absurd h0 hn
    · exact hv
  · intro mem s r p pEnd maxLen hs hd hp
    rw [read_aligned_str_step maxLen hs hd hp]
    by_cases hc : maxLen > 0 ∧ s.length > maxLen
    · rw [if_pos hc]
      refine ⟨⟨fun h => (by cases h), fun h => (by omega)⟩, fun _ => rfl⟩
    · rw [if_neg hc]
      refine ⟨⟨fun _ => (by omega), fun _ => rfl⟩, fun h => (by omega)⟩

theorem validator_soundness_witness :
    scenarioClass.valid ∧
    ((read_aligned_str (strWire [110, 111, 116, 101]) 0 16 4 =
        .ok (0 + (strWire [110, 111, 116, 101]).length, [110, 111, 116, 101]) ↔
        ((4 : Nat) = 0 ∨ ([110, 111, 116, 101] : List Byte).length ≤ 4)) ∧
      (¬ ((3 : Nat) = 0 ∨ ([110, 111, 116, 101] : List Byte).length ≤ 3) →
        read_aligned_str (strWire [110, 111, 116, 101]) 0 16 3 = .error .brk)) :=
  ⟨validator_soundness.1 {} scenarioClass scenarioClass.wire 136 (by decide) (by decide),
    (validator_soundness.2 (strWire [110, 111, 116, 101]) [110, 111, 116, 101] [] 0 16 4
      (by decide) (by decide) (by decide)).1,
    (validator_soundness.2 (strWire [110, 111, 116, 101]) [110, 111, 116, 101] [] 0 16 3
      (by decide) (by decide) (by decide)).2⟩

/-- C9. Range-enforcement asymmetry: take a record with a valid year and name
whose student list is `pre ++ bad :: post`, the students of `pre` valid and
`bad.nAge` a non-zero `int` outside 10..200. Encoding succeeds (the size query
returns a non-zero size and fill mode returns the same size), and decoding that
encoding returns 0 with the target reset. -/
theorem age_range_asymmetry (R : MyClass) (pre post : List Student) (bad : Student)
    (buf : List Byte) (hmem : R.inMemory)
    (hyear : R.nYearEstablished = 0 ∨ (1000 ≤ R.nYearEstablished ∧ R.nYearEstablished ≤ 2100))
    (hname : R.strName ≠ []) (hnl : R.strName.length ≤ 256)
    (hst : R.students = pre ++ bad :: post) (hpre : ∀ s ∈ pre, s.valid)
    (hint : -(2 ^ 31) ≤ bad.nAge ∧ bad.nAge < 2 ^ 31)
    (hage : bad.nAge ≠ 0 ∧ (bad.nAge < 10 ∨ 200 < bad.nAge))
    (hbuf : R.toByteArray none 0 = .ret buf.length none) :
    buf.length ≠ 0 ∧
    ∃ E, R.toByteArray (some buf) buf.length = .ret buf.length (some E) ∧
      MyClass.fromByteArray {} (some E) buf.length = .ret 0 {} := by
  have hn := query_eq_encodedSize hmem hbuf
  have hlt : R.encodedSize < 2 ^ 63 := hmem
  have hge := R.encodedSize_ge
  obtain ⟨h1, h2, h3⟩ := R.encodedSize_parts hmem
  have l1 := strWire_length (show R.strName.length ≤ 2 ^ 64 - 8 by omega)
  have hes : R.encodedSize = 32 + roundUp8 R.strName.length + roundUp8 R.strNotes.length +
    studentsSize R.students := rfl
  have hss : studentsSize R.students =
      studentsSize pre + (bad.encodedSize + studentsSize post) := by
    rw [hst, studentsSize_append]; rfl
  have hoff : R.studentsOffset = 16 + (strWire R.strName).length := by
    unfold MyClass.studentsOffset; omega
  refine ⟨by omega, R.wire ++ buf.drop R.encodedSize, ?_, ?_⟩
  · rw [hn]; exact R.toByteArray_fill buf _ hmem (le_refl _) (by omega)
  · rw [hn]
    have hd := R.wire_drop_students (buf.drop R.encodedSize)
    have hd1 : (R.wire ++ buf.drop R.encodedSize).drop R.studentsOffset = wireStudents pre ++
        (bad.wire ++ (wireStudents post ++ (strWire R.strNotes ++ buf.drop R.encodedSize))) := by
      rw [hd, hst, wireStudents_append, wireStudents, List.append_assoc, List.append_assoc]
    obtain ⟨st2, hl⟩ := MyClass.loop_wire (R.wire ++ buf.drop R.encodedSize) R.encodedSize pre
      (post.length + 1) hpre hlt {} R.studentsOffset [] _ hd1 (by omega)
    have hd2 := drop_step hd1
    rw [wireStudents_length (by omega)] at hd2
    have hbadmem : bad.inMemory := by unfold Student.inMemory; omega
    have hloop : MyClass.fromByteArray.loop (R.wire ++ buf.drop R.encodedSize) R.encodedSize
        R.students.length {} R.studentsOffset [] = .error .brk := by
      rw [show R.students.length = pre.length + (post.length + 1) by rw [hst]; simp, hl,
        MyClass.fromByteArray.loop, hd2, toSizeT_sub (by omega) (by omega),
        Student.fromByteArray_bad_age st2 bad _ _ hbadmem (by omega) (by omega) hint hage]
      rfl
    unfold MyClass.fromByteArray
    rw [MyClass.body_wire_of_loop {} R _ _ hmem (le_refl _) hlt hyear hname hnl _ hloop]

theorem age_range_asymmetry_witness :
    (List.replicate 136 (0 : Byte)).length ≠ 0 ∧
    ∃ E, scenarioAgeFive.toByteArray (some (List.replicate 136 0))
        (List.replicate 136 (0 : Byte)).length =
        .ret (List.replicate 136 (0 : Byte)).length (some E) ∧
      MyClass.fromByteArray {} (some E) (List.replicate 136 (0 : Byte)).length = .ret 0 {} :=
  age_range_asymmetry scenarioAgeFive [] [] { scenarioStudent with nAge := 5 }
    (List.replicate 136 0) (by decide) (by decide) (by decide) (by decide) (by decide)
    (by decide) (by decide) (by decide) (by decide)

/-- C10. Enum boundary: take a student all of whose other fields satisfy the
validator and give it the 32-bit attendance ordinal `a`. Its encoding decodes
successfully (to the same student) when `a ≤ 6`, in particular for 6
(`External`), and decoding returns 0 with the struct reset when `7 ≤ a`, in
particular for 7 (`MaxCount`). On arbitrary bytes a successful decode always
leaves an ordinal in 0..6. -/
theorem attendance_boundary :
    (∀ (s : Student) (a : Nat) (buf : List Byte), s.inMemory →
      ({ s with attendance := 0 } : Student).valid → a < 2 ^ 32 →
      ({ s with attendance := a } : Student).toByteArray none 0 = .ret buf.length none →
      buf.length ≠ 0 ∧
      ∃ E, ({ s with attendance := a } : Student).toByteArray (some buf) buf.length =
          .ret buf.length (some E) ∧
        (a ≤ 6 → Student.fromByteArray {} (some E) buf.length =
          .ret buf.length { s with attendance := a }) ∧
        (7 ≤ a → Student.fromByteArray {} (some E) buf.length = .ret 0 {})) ∧
    (∀ (self r : Student) (data : List Byte) (n : Nat),
      Student.fromByteArray self (some data) data.length = .ret n r → n ≠ 0 →
      r.attendance ≤ 6) := by
  constructor
  · intro s a buf hmem hv ha hbuf
    have hmem2 : ({ s with attendance := a } : Student).inMemory := hmem
    have hn := Student.student_query_eq_encodedSize hmem2 hbuf
    have hlt : ({ s with attendance := a } : Student).encodedSize < 2 ^ 63 := hmem2
    have hge := ({ s with attendance := a } : Student).student_encodedSize_ge
    refine ⟨by omega, ({ s with attendance := a } : Student).wire ++
      buf.drop ({ s with attendance := a } : Student).encodedSize, ?_, ?_, ?_⟩
    · rw [hn]; exact Student.student_toByteArray_fill _ buf _ hmem2 (le_refl _) (by omega)
    · intro h6
      rw [hn]
      refine Student.student_fromByteArray_wire {} _ _ _ ?_ hmem2 (le_refl _) hlt
      obtain ⟨v1, v2, v3, v4, v5, _, v7, v8⟩ := hv
      exact ⟨v1, v2, v3, v4, v5, h6, v7, v8⟩
    · intro h7
      rw [hn]
      exact Student.fromByteArray_bad_attendance {} _ _ _ hmem2 (le_refl _) hlt ha h7
  · intro self r data n h hn
    rcases Student.student_fromByteArray_ret h with ⟨h0, _⟩ | ⟨_, _, _, hv⟩
    · exact absurd h0 hn
    · exact hv.2.2.2.2.2.1

theorem attendance_boundary_witness :
    ((List.replicate 80 (0 : Byte)).length ≠ 0 ∧
      ∃ E, ({ scenarioStudent with attendance := 6 } : Student).toByteArray
          (some (List.replicate 80 0)) (List.replicate 80 (0 : Byte)).length =
          .ret (List.replicate 80 (0 : Byte)).length (some E) ∧
        (6 ≤ 6 → Student.fromByteArray {} (some E) (List.replicate 80 (0 : Byte)).length =
          .ret (List.replicate 80 (0 : Byte)).length { scenarioStudent with attendance := 6 }) ∧
        (7 ≤ 6 → Student.fromByteArray {} (some E) (List.replicate 80 (0 : Byte)).length =
          .ret 0 {})) ∧
    ((List.replicate 80 (0 : Byte)).length ≠ 0 ∧
      ∃ E, ({ scenarioStudent with attendance := 7 } : Student).toByteArray
          (some (List.replicate 80 0)) (List.replicate 80 (0 : Byte)).length =
          .ret (List.replicate 80 (0 : Byte)).length (some E) ∧
        (7 ≤ 6 → Student.fromByteArray {} (some E) (List.replicate 80 (0 : Byte)).length =
          .ret (List.replicate 80 (0 : Byte)).length { scenarioStudent with attendance := 7 }) ∧
        (7 ≤ 7 → Student.fromByteArray {} (some E) (List.replicate 80 (0 : Byte)).length =
          .ret 0 {})) ∧
    scenarioStudent.attendance ≤ 6 :=
  ⟨attendance_boundary.1 scenarioStudent 6 (List.replicate 80 0) (by decide) (by decide)
      (by decide) (by decide),
    attendance_boundary.1 scenarioStudent 7 (List.replicate 80 0) (by decide) (by decide)
      (by decide) (by decide),
    attendance_boundary.2 {} scenarioStudent scenarioStudent.wire 80 (by decide) (by decide)⟩

/-! ## Alignment, field validation, layout and padding -/

theorem aligned_mod_form (n : Nat) : aligned n = (n + (2 ^ 64 - n % 2 ^ 64) % 8) % 2 ^ 64 := by
  unfold aligned ALIGN_BY
  rw [show (8 - 1 : Nat) = 7 from rfl, and_seven]
  unfold toSizeT toIntPtr
  have h1 : n % 2 ^ 64 < 2 ^ 64 := Nat.mod_lt _ (by norm_num)
  split <;> omega

/-- C13. Alignment law in `size_t` arithmetic: `aligned(aligned(n)) = aligned(n)`
for every `n`, and `aligned(0) = 0`. -/
theorem aligned_idempotent (n : Nat) : aligned (aligned n) = aligned n ∧ aligned 0 = 0 := by
  refine ⟨?_, by decide⟩
  rw [aligned_mod_form (aligned n), aligned_mod_form n]
  omega

/-- C14. For `n ≤ 2 ^ 64 - 8` the bit trick rounds up to the nearest multiple
of 8: the result is a multiple of 8, lies in `[n, n + 8)`, is the least
multiple of 8 that is at least `n`, and equals the commented-out reference. -/
theorem aligned_rounds_up (n : Nat) (h : n ≤ 2 ^ 64 - 8) :
    aligned n % 8 = 0 ∧ n ≤ aligned n ∧ aligned n < n + 8 ∧
      (∀ m, m % 8 = 0 → n ≤ m → aligned n ≤ m) ∧
      aligned n = alignedReference n := by
  rw [aligned_mod_form n]
  unfold alignedReference ALIGN_BY
  refine ⟨by omega, by omega, by omega, fun m hm hn => by omega, ?_⟩
  split <;> omega

theorem aligned_rounds_up_witness :
    (13 : Nat) ≤ 2 ^ 64 - 8 ∧
    (aligned 13 % 8 = 0 ∧ 13 ≤ aligned 13 ∧ aligned 13 < 13 + 8 ∧
      (∀ m, m % 8 = 0 → 13 ≤ m → aligned 13 ≤ m) ∧
      aligned 13 = alignedReference 13) :=
  ⟨by decide, aligned_rounds_up 13 (by decide)⟩

theorem isfinite_iff (v : Nat) : isfinite v = true ↔ v / 2 ^ 52 % 2 ^ 11 ≠ 2047 := by
  unfold isfinite
  rw [decide_eq_true_iff]
  exact Iff.rfl

theorem Student.fromByteArray_bad_score (self s : Student) (rest : List Byte) (sz : Nat)
    (hmem : s.inMemory) (hlen : s.encodedSize ≤ sz) (hsz : sz < 2 ^ 63)
    (hs : s.fPerformanceScore < 2 ^ 64) (hexp : s.fPerformanceScore / 2 ^ 52 % 2 ^ 11 = 2047) :
    Student.fromByteArray self (some (s.wire ++ rest)) sz = .ret 0 {} := by
  have e3 : s.fPerformanceScore % 256 ^ 8 = s.fPerformanceScore := Nat.mod_eq_of_lt (by omega)
  have c8 : (!isfinite s.fPerformanceScore) = true := by
    cases hf : isfinite s.fPerformanceScore
    · rfl
    · exact absurd hexp ((isfinite_iff _).mp hf)
  unfold Student.fromByteArray Student.wire
  rw [Student.body_wireWith self s _ rest sz hmem hlen hsz]
  simp only [e3, if_pos c8]
  split_ifs <;> rfl

/-- C12. Finite-float validation: the encoding of a student whose other fields
are valid and whose score bit pattern has all eleven exponent bits set (NaN or
an infinity) decodes to 0 with the struct reset; and `read_aligned_double`,
with 8 bytes inside the span, accepts the pattern it reads exactly when its
exponent is not all ones. -/
theorem nonfinite_score_rejected :
    (∀ (s : Student) (buf : List Byte), s.inMemory →
      s.fPerformanceScore < 2 ^ 64 → s.fPerformanceScore / 2 ^ 52 % 2 ^ 11 = 2047 →
      s.toByteArray none 0 = .ret buf.length none →
      ∃ E, s.toByteArray (some buf) buf.length = .ret buf.length (some E) ∧
        Student.fromByteArray {} (some E) buf.length = .ret 0 {}) ∧
    (∀ (mem : List Byte) (p pEnd : Nat), p + 8 ≤ pEnd → pEnd ≤ mem.length →
      (fromBytes ((mem.drop p).take 8) / 2 ^ 52 % 2 ^ 11 ≠ 2047 →
        read_aligned_double mem p pEnd = .ok (p + 8, fromBytes ((mem.drop p).take 8))) ∧
      (fromBytes ((mem.drop p).take 8) / 2 ^ 52 % 2 ^ 11 = 2047 →
        read_aligned_double mem p pEnd = .error .brk)) := by
  constructor
  · intro s buf hmem hs hexp hbuf
    have hn := Student.student_query_eq_encodedSize hmem hbuf
    have hlt : s.encodedSize < 2 ^ 63 := hmem
    refine ⟨s.wire ++ buf.drop s.encodedSize, ?_, ?_⟩
    · rw [hn]; exact s.student_toByteArray_fill buf _ hmem (le_refl _) (by omega)
    · rw [hn]; exact Student.fromByteArray_bad_score {} s _ _ hmem (le_refl _) hlt hs hexp
  · intro mem p pEnd hp hE
    have hr : read_aligned sizeof_double mem p pEnd =
        .ok (p + 8, fromBytes ((mem.drop p).take 8)) := by
      have h8 : sizeof_double = 8 := rfl
      unfold read_aligned load
      simp only [aligned_eight]
      rw [if_neg (by omega), if_pos (by omega)]
    unfold read_aligned_double
    rw [hr]
    constructor
    · intro h
      have hf := (isfinite_iff _).mpr h
      simp only [hf, Bool.not_true, Bool.false_eq_true, if_false]
    · intro h
      have hf : isfinite (fromBytes ((mem.drop p).take 8)) = false := by
        cases hf : isfinite (fromBytes ((mem.drop p).take 8))
        · rfl
        · exact absurd h ((isfinite_iff _).mp hf)
      simp only [hf, Bool.not_false, if_true]

theorem nonfinite_score_rejected_witness :
    (∃ E, ({ scenarioStudent with fPerformanceScore := 0x7FF0000000000000 } : Student).toByteArray
        (some (List.replicate 80 0)) (List.replicate 80 (0 : Byte)).length =
        .ret (List.replicate 80 (0 : Byte)).length (some E) ∧
      Student.fromByteArray {} (some E) (List.replicate 80 (0 : Byte)).length = .ret 0 {}) ∧
    read_aligned_double (toBytes 8 0x4029000000000000) 0 8 =
      .ok (0 + 8, fromBytes (((toBytes 8 0x4029000000000000).drop 0).take 8)) ∧
    read_aligned_double (toBytes 8 0xFFF8000000000000) 0 8 = .error .brk :=
  ⟨nonfinite_score_rejected.1 { scenarioStudent with fPerformanceScore := 0x7FF0000000000000 }
      (List.replicate 80 0) (by decide) (by decide) (by decide) (by decide),
    (nonfinite_score_rejected.2 (toBytes 8 0x4029000000000000) 0 8 (by decide) (by decide)).1
      (by decide),
    (nonfinite_score_rejected.2 (toBytes 8 0xFFF8000000000000) 0 8 (by decide) (by decide)).2
      (by decide)⟩

theorem sum_szcbData (l : List Student) (h : studentsSize l < 2 ^ 63) :
    (l.map Student.toByteArray.szcbData).sum = studentsSize l := by
  induction l with
  | nil => rfl
  | cons a l ih =>
    simp only [studentsSize] at h
    simp only [List.map_cons, List.sum_cons, studentsSize]
    rw [ih (by omega), a.student_szcbData_eq (by unfold Student.inMemory; omega)]

theorem slot_four (v : Nat) : slot sizeof_int v = toBytes 4 v ++ List.replicate 4 0 := by
  unfold slot; rw [aligned_four]; rfl

theorem slot_one (v : Nat) : slot sizeof_bool v = toBytes 1 v ++ List.replicate 7 0 := by
  unfold slot; rw [aligned_one]; rfl

theorem slot_eight (v : Nat) : slot sizeof_size_t v = toBytes 8 v := by
  unfold slot; rw [aligned_eight]; simp

theorem Student.student_wire_explicit (s : Student) :
    s.wire = toBytes 4 (intToRaw s.nAge) ++ List.replicate 4 0 ++
      (toBytes 8 s.strGivenName.length ++ s.strGivenName ++
        List.replicate (aligned s.strGivenName.length - s.strGivenName.length) 0) ++
      (toBytes 8 s.strSecondName.length ++ s.strSecondName ++
        List.replicate (aligned s.strSecondName.length - s.strSecondName.length) 0) ++
      (toBytes 8 s.strThirdName.length ++ s.strThirdName ++
        List.replicate (aligned s.strThirdName.length - s.strThirdName.length) 0) ++
      (toBytes 4 s.attendance ++ List.replicate 4 0) ++
      (toBytes 1 (if s.bSuspended then 1 else 0) ++ List.replicate 7 0) ++
      toBytes 8 s.fPerformanceScore ++
      (toBytes 8 s.strNotes.length ++ s.strNotes ++
        List.replicate (aligned s.strNotes.length - s.strNotes.length) 0) := by
  unfold Student.wire Student.wireWith strWire
  rw [slot_four, slot_one, slot_eight, slot_eight, slot_eight, slot_eight, slot_eight]
  have : slot sizeof_AttendanceType s.attendance = toBytes 4 s.attendance ++ List.replicate 4 0 :=
    slot_four _
  rw [this]

theorem MyClass.wire_explicit (R : MyClass) :
    R.wire = toBytes 4 (intToRaw R.nYearEstablished) ++ List.replicate 4 0 ++
      (toBytes 8 R.strName.length ++ R.strName ++
        List.replicate (aligned R.strName.length - R.strName.length) 0) ++
      toBytes 8 R.students.length ++ wireStudents R.students ++
      (toBytes 8 R.strNotes.length ++ R.strNotes ++
        List.replicate (aligned R.strNotes.length - R.strNotes.length) 0) := by
  unfold MyClass.wire strWire
  rw [slot_four, slot_eight, slot_eight, slot_eight]

/-- C15. Wire layout: fill mode produces exactly the year slot, the name string,
the 8-byte student count, the students' images one after the other, and the
notes string; each student's image is what `Student::toByteArray` produces on
its own; and the size is 32 + aligned name length + aligned notes length + the
sum of the students' own sizes, which is 136 for the concrete scenario. -/
theorem wire_layout :
    (∀ (R : MyClass) (buf : List Byte), R.inMemory →
      R.toByteArray none 0 = .ret buf.length none →
      R.toByteArray (some buf) buf.length = .ret buf.length (some
        (slot sizeof_int (intToRaw R.nYearEstablished) ++ strWire R.strName ++
          slot sizeof_size_t R.students.length ++ wireStudents R.students ++
          strWire R.strNotes)) ∧
      (∀ s ∈ R.students, ∀ b : List Byte, s.toByteArray none 0 = .ret b.length none →
        s.toByteArray (some b) b.length = .ret b.length (some s.wire)) ∧
      buf.length = 32 + aligned R.strName.length + aligned R.strNotes.length +
        (R.students.map Student.toByteArray.szcbData).sum) ∧
    (∀ str : List Byte, strWire str = toBytes 8 str.length ++ str ++
      List.replicate (aligned str.length - str.length) 0) ∧
    scenarioClass.toByteArray none 0 = .ret 136 none := by
  refine ⟨?_, ?_, by decide⟩
  · intro R buf hmem hbuf
    have hn := query_eq_encodedSize hmem hbuf
    have hlt : R.encodedSize < 2 ^ 63 := hmem
    obtain ⟨h1, h2, h3⟩ := R.encodedSize_parts hmem
    refine ⟨?_, ?_, ?_⟩
    · rw [hn, R.toByteArray_fill buf _ hmem (le_refl _) (by omega),
        List.drop_eq_nil_of_le (by omega), List.append_nil]
      rfl
    · intro s hs b hb
      have hsm : s.inMemory := studentsSize_inMemory (le_refl _) h3 s hs
      have hbn := Student.student_query_eq_encodedSize hsm hb
      rw [hbn, s.student_toByteArray_fill b _ hsm (le_refl _) (by omega),
        List.drop_eq_nil_of_le (by omega), List.append_nil]
    · rw [hn, sum_szcbData _ h3, aligned_eq_roundUp8 (by omega), aligned_eq_roundUp8 (by omega)]
      unfold MyClass.encodedSize
      omega
  · intro str
    unfold strWire
    rw [slot_eight]

theorem wire_layout_witness :
    scenarioClass.toByteArray (some (List.replicate 136 0)) (List.replicate 136 (0 : Byte)).length =
        .ret (List.replicate 136 (0 : Byte)).length (some
        (slot sizeof_int (intToRaw scenarioClass.nYearEstablished) ++ strWire scenarioClass.strName ++
          slot sizeof_size_t scenarioClass.students.length ++ wireStudents scenarioClass.students ++
          strWire scenarioClass.strNotes)) ∧
      (∀ s ∈ scenarioClass.students, ∀ b : List Byte, s.toByteArray none 0 = .ret b.length none →
        s.toByteArray (some b) b.length = .ret b.length (some s.wire)) ∧
      (List.replicate 136 (0 : Byte)).length = 32 + aligned scenarioClass.strName.length +
        aligned scenarioClass.strNotes.length +
        (scenarioClass.students.map Student.toByteArray.szcbData).sum :=
  wire_layout.1 scenarioClass (List.replicate 136 0) (by decide) (by decide)

/-- C16. Zero padding and canonical output: for a record that is an object of
the process and any two sufficiently large buffers, the first `n` bytes after
fill mode are the same and equal the wire image, whatever the buffers held;
and in the wire image of a class record and of a student every byte between
`sizeof(T)` and 8 of a scalar slot and between a string's length and its
aligned length is 0. -/
theorem zero_padding_canonical :
    (∀ (R : MyClass) (buf1 buf2 : List Byte) (size1 size2 n : Nat), R.inMemory →
      R.toByteArray none 0 = .ret n none →
      n ≤ size1 → size1 ≤ buf1.length → n ≤ size2 → size2 ≤ buf2.length →
      ∃ E1 E2, R.toByteArray (some buf1) size1 = .ret n (some E1) ∧
        R.toByteArray (some buf2) size2 = .ret n (some E2) ∧
        E1.take n = R.wire ∧ E2.take n = R.wire) ∧
    (∀ R : MyClass,
      R.wire = toBytes 4 (intToRaw R.nYearEstablished) ++ List.replicate 4 0 ++
        (toBytes 8 R.strName.length ++ R.strName ++
          List.replicate (aligned R.strName.length - R.strName.length) 0) ++
        toBytes 8 R.students.length ++ wireStudents R.students ++
        (toBytes 8 R.strNotes.length ++ R.strNotes ++
          List.replicate (aligned R.strNotes.length - R.strNotes.length) 0)) ∧
    (∀ (s : Student) (rest : List Student), wireStudents (s :: rest) =
      (toBytes 4 (intToRaw s.nAge) ++ List.replicate 4 0 ++
      (toBytes 8 s.strGivenName.length ++ s.strGivenName ++
        List.replicate (aligned s.strGivenName.length - s.strGivenName.length) 0) ++
      (toBytes 8 s.strSecondName.length ++ s.strSecondName ++
        List.replicate (aligned s.strSecondName.length - s.strSecondName.length) 0) ++
      (toBytes 8 s.strThirdName.length ++ s.strThirdName ++
        List.replicate (aligned s.strThirdName.length - s.strThirdName.length) 0) ++
      (toBytes 4 s.attendance ++ List.replicate 4 0) ++
      (toBytes 1 (if s.bSuspended then 1 else 0) ++ List.replicate 7 0) ++
      toBytes 8 s.fPerformanceScore ++
      (toBytes 8 s.strNotes.length ++ s.strNotes ++
        List.replicate (aligned s.strNotes.length - s.strNotes.length) 0)) ++
      wireStudents rest) := by
  refine ⟨?_, MyClass.wire_explicit, ?_⟩
  · intro R buf1 buf2 size1 size2 n hmem hq h1 h1b h2 h2b
    have hn := query_eq_encodedSize hmem hq
    subst hn
    have hw := R.wire_length hmem
    refine ⟨_, _, R.toByteArray_fill buf1 size1 hmem h1 (by omega),
      R.toByteArray_fill buf2 size2 hmem h2 (by omega), ?_, ?_⟩
    · rw [← hw, List.take_left]
    · rw [← hw, List.take_left]
  · intro s rest
    rw [wireStudents, s.student_wire_explicit]

theorem zero_padding_canonical_witness :
    ∃ E1 E2, scenarioClass.toByteArray (some (List.replicate 200 7)) 150 = .ret 136 (some E1) ∧
      scenarioClass.toByteArray (some (List.replicate 136 255)) 136 = .ret 136 (some E2) ∧
      E1.take 136 = scenarioClass.wire ∧ E2.take 136 = scenarioClass.wire :=
  zero_padding_canonical.1 scenarioClass (List.replicate 200 7) (List.replicate 136 255) 150 136 136
    (by decide) (by decide) (by decide) (by decide) (by decide) (by decide)

/-- C17. Undersized destination: with a non-null buffer and a size below what
the size query returns, `toByteArray` returns 0 and leaves the buffer as it
was; the same holds for `Student::toByteArray`. -/
theorem undersized_destination :
    (∀ (R : MyClass) (buf : List Byte) (size n : Nat),
      R.toByteArray none 0 = .ret n none → size < n →
      R.toByteArray (some buf) size = .ret 0 (some buf)) ∧
    (∀ (s : Student) (buf : List Byte) (size n : Nat),
      s.toByteArray none 0 = .ret n none → size < n →
      s.toByteArray (some buf) size = .ret 0 (some buf)) := by
  constructor
  · intro R buf size n hq hs
    rw [R.toByteArray_query] at hq
    cases hq
    unfold MyClass.toByteArray
    simp only [ge_iff_le]
    rw [if_neg (by omega)]
  · intro s buf size n hq hs
    rw [s.student_toByteArray_query] at hq
    cases hq
    unfold Student.toByteArray
    simp only [ge_iff_le]
    rw [if_neg (by omega)]

theorem undersized_destination_witness :
    scenarioClass.toByteArray (some (List.replicate 135 7)) 135 =
      .ret 0 (some (List.replicate 135 7)) ∧
    scenarioStudent.toByteArray (some (List.replicate 200 7)) 79 =
      .ret 0 (some (List.replicate 200 7)) :=
  ⟨undersized_destination.1 scenarioClass (List.replicate 135 7) 135 136 (by decide) (by decide),
    undersized_destination.2 scenarioStudent (List.replicate 200 7) 79 80 (by decide) (by decide)⟩

/-- C18. The cursor invariant fails for `read_aligned_str`: on the 9-byte span
`shortStringInput`, from position 0 (which is `≤ end = 9`), the call succeeds
and leaves the position at 16, past the end; it advanced by `aligned(1) = 8`
with only 1 byte remaining after the length field. -/
theorem cursor_leaves_span :
    read_aligned_str shortStringInput 0 shortStringInput.length 0 = .ok (16, [65]) ∧
    shortStringInput.length = 9 ∧ (0 : Nat) ≤ 9 ∧ ¬ (16 ≤ 9) :=
  ⟨rfl, by decide, by decide, by decide⟩

theorem load_congr {m m2 : List Byte} {p k : Nat} (h1 : p + k ≤ m.length)
    (h2 : p + k ≤ m2.length) (ha : agreeOn m m2 p (p + k)) : load m2 p k = load m p k := by
  unfold load
  rw [if_pos h1, if_pos h2]
  congr 1
  apply List.ext_getElem?
  intro i
  rw [List.getElem?_take, List.getElem?_take]
  split
  · rw [List.getElem?_drop, List.getElem?_drop]
    exact ha (p + i) (by omega) (by omega)
  · rfl

theorem agreeOn_mono {m m2 : List Byte} {lo hi lo2 hi2 : Nat} (h : agreeOn m m2 lo hi)
    (h1 : lo ≤ lo2) (h2 : hi2 ≤ hi) : agreeOn m m2 lo2 hi2 :=
  fun i a b => h i (by omega) (by omega)

/-- The bytes a successful `read_aligned` loaded. -/
theorem read_aligned_load {k p pEnd p2 v : Nat} {mem : List Byte}
    (h : read_aligned k mem p pEnd = .ok (p2, v)) :
    p + aligned k ≤ pEnd ∧ p + k ≤ mem.length ∧ v = fromBytes ((mem.drop p).take k) := by
  unfold read_aligned load at h
  simp only at h
  split at h
  · cases h
  · split at h
    · cases h
    · rename_i bs hbs
      cases h
      split at hbs
      · cases hbs
        exact ⟨by omega, by omega, rfl⟩
      · cases hbs

theorem read_aligned_congr {k p pEnd p2 v : Nat} {m : List Byte} (m2 : List Byte) (pEnd2 : Nat)
    (h : read_aligned k m p pEnd = .ok (p2, v)) (hE : p2 ≤ pEnd2) (hl : p + k ≤ m2.length)
    (ha : agreeOn m m2 p (p + k)) : read_aligned k m2 p pEnd2 = .ok (p2, v) := by
  obtain ⟨a1, a2, a3⟩ := read_aligned_load h
  obtain ⟨b1, _, _⟩ := read_aligned_ok h
  have hld := load_congr a2 hl ha
  unfold read_aligned at h ⊢
  simp only at h ⊢
  rw [if_neg (by omega)] at h
  rw [if_neg (by omega), hld]
  exact h

theorem read_aligned_double_congr {p pEnd p2 v : Nat} {m : List Byte} (m2 : List Byte)
    (pEnd2 : Nat) (h : read_aligned_double m p pEnd = .ok (p2, v)) (hE : p2 ≤ pEnd2) (hl : p + 8 ≤ m2.length)
    (ha : agreeOn m m2 p (p + 8)) : read_aligned_double m2 p pEnd2 = .ok (p2, v) := by
  unfold read_aligned_double at h ⊢
  split at h
  · cases h
  · rename_i q s hr
    split at h
    · cases h
    · rename_i hf
      cases h
      rw [read_aligned_congr m2 pEnd2 hr hE hl ha]
      simp only [hf]
      rfl

/-- The bytes a successful `read_aligned_str` loaded: the length field and the
characters, nothing of the padding. -/
theorem read_aligned_str_load {p pEnd p2 maxLen : Nat} {mem s : List Byte}
    (h : read_aligned_str mem p pEnd maxLen = .ok (p2, s)) :
    p + 8 + s.length ≤ mem.length ∧ s.length = fromBytes ((mem.drop p).take 8) ∧
      s = (mem.drop (p + 8)).take s.length := by
  unfold read_aligned_str at h
  split at h
  · cases h
  · rename_i q sz hr
    obtain ⟨a1, a2, a3⟩ := read_aligned_load hr
    obtain ⟨b1, _, b3⟩ := read_aligned_ok hr
    rw [aligned_eight] at b1
    split at h
    · cases h
    · split at h
      · cases h
      · rename_i bs hbs
        obtain ⟨hl, hle⟩ := load_length hbs
        simp only at h
        split at h
        · cases h
        · cases h
          unfold load at hbs
          rw [if_pos hle] at hbs
          cases hbs
          subst b1
          rw [hl]
          exact ⟨by omega, a3, rfl⟩

theorem read_aligned_str_congr {p pEnd p2 maxLen : Nat} {m s : List Byte} (m2 : List Byte)
    (pEnd2 : Nat) (h : read_aligned_str m p pEnd maxLen = .ok (p2, s)) (hE : p + 8 + s.length ≤ pEnd2)
    (hl : p + 8 + s.length ≤ m2.length) (ha : agreeOn m m2 p (p + 8 + s.length)) :
    read_aligned_str m2 p pEnd2 maxLen = .ok (p2, s) := by
  obtain ⟨c1, c2, c3⟩ := read_aligned_str_load h
  have h8 : sizeof_size_t = 8 := rfl
  unfold read_aligned_str at h ⊢
  split at h
  · cases h
  · rename_i q sz hr
    obtain ⟨b1, _, b3⟩ := read_aligned_ok hr
    obtain ⟨a1, a2, a3⟩ := read_aligned_load hr
    rw [aligned_eight] at b1
    have hsz : sz = s.length := by rw [c2, a3]
    have hr2 := read_aligned_congr m2 pEnd2 hr (by omega) (by omega)
      (agreeOn_mono ha (le_refl _) (by omega))
    rw [hr2]
    simp only at h ⊢
    have hlt : sz < 2 ^ 64 := by simpa using b3
    have hm : sz * sizeof_STR_CHAR % 2 ^ 64 = sz := by
      rw [Nat.mul_one]; exact Nat.mod_eq_of_lt hlt
    rw [hm] at h ⊢
    split at h
    · cases h
    · rename_i hcond
      rw [if_neg (by omega),
        load_congr (by omega) (by omega) (agreeOn_mono ha (by omega) (by omega))]
      exact h

theorem Student.student_body_sz_pos {self r : Student} {pData : Option (List Byte)} {sz n : Nat}
    (h : Student.fromByteArray.body self pData sz = .ok (n, r)) : ¬ toIntPtr sz ≤ 0 := by
  unfold Student.fromByteArray.body at h
  split at h
  · cases h
  · exact (ite_error_eq_ok h).1

/-- The student decoder reads only the data bytes of the fields it decodes: a
span that holds the same bytes at the non-padding offsets below the consumed
length, and is long enough, decodes to the same student. -/
theorem Student.student_body_congr {self self2 r : Student} {m m2 : List Byte} {sz sz2 n : Nat}
    (h : Student.fromByteArray.body self (some m) sz = .ok (n, r))
    (hsz : ¬ toIntPtr sz2 ≤ 0) (hn : n ≤ sz2) (hl : n ≤ m2.length)
    (ha : ∀ i, i < n → ¬ r.isPadding i → m2[i]? = m[i]?) :
    Student.fromByteArray.body self2 (some m2) sz2 = .ok (n, r) := by
  unfold Student.fromByteArray.body at h
  simp only at h
  obtain ⟨_, h⟩ := ite_error_eq_ok h
  simp only [Nat.zero_add] at h
  obtain ⟨⟨p1, v1⟩, e1, h⟩ := bind_eq_ok h
  obtain ⟨c1, h⟩ := ite_error_eq_ok h
  obtain ⟨⟨p2, v2⟩, e2, h⟩ := bind_eq_ok h
  obtain ⟨c2, h⟩ := ite_error_eq_ok h
  obtain ⟨⟨p3, v3⟩, e3, h⟩ := bind_eq_ok h
  obtain ⟨⟨p4, v4⟩, e4, h⟩ := bind_eq_ok h
  obtain ⟨⟨p5, v5⟩, e5, h⟩ := bind_eq_ok h
  obtain ⟨c5, h⟩ := ite_error_eq_ok h
  obtain ⟨⟨p6, v6⟩, e6, h⟩ := bind_eq_ok h
  obtain ⟨c6, h⟩ := ite_error_eq_ok h
  obtain ⟨⟨p7, v7⟩, e7, h⟩ := bind_eq_ok h
  obtain ⟨⟨p8, v8⟩, e8, h⟩ := bind_eq_ok h
  obtain ⟨c8, h⟩ := ite_ok_eq_ok h
  cases h
  obtain ⟨a1, b1, r1⟩ := read_aligned_ok e1
  obtain ⟨a2, b2, r2, m2x⟩ := read_aligned_str_ok e2
  obtain ⟨a3, b3, r3, m3⟩ := read_aligned_str_ok e3
  obtain ⟨a4, b4, r4, m4⟩ := read_aligned_str_ok e4
  obtain ⟨a5, b5, r5⟩ := read_aligned_ok e5
  obtain ⟨a6, b6, r6⟩ := read_aligned_ok e6
  obtain ⟨a7, b7, r7, f7⟩ := read_aligned_double_ok e7
  obtain ⟨a8, b8, r8, m8⟩ := read_aligned_str_ok e8
  rw [aligned_four] at a1 a5
  rw [aligned_one] at a6
  have g2 := roundUp8_ge v2.length
  have g3 := roundUp8_ge v3.length
  have g4 := roundUp8_ge v4.length
  have g8 := roundUp8_ge v8.length
  have k4 : sizeof_int = 4 := rfl
  have k4a : sizeof_AttendanceType = 4 := rfl
  have k1 : sizeof_bool = 1 := rfl
  unfold Student.isPadding at ha
  simp only at ha
  have ag : ∀ lo hi, hi ≤ p8 → (∀ i, lo ≤ i → i < hi →
      ¬ ((sizeof_int ≤ i ∧ i < 8) ∨
        (8 + 8 + v2.length ≤ i ∧ i < 8 + 8 + roundUp8 v2.length) ∨
        (8 + 8 + roundUp8 v2.length + 8 + v3.length ≤ i ∧
          i < 8 + 8 + roundUp8 v2.length + 8 + roundUp8 v3.length) ∨
        (8 + 8 + roundUp8 v2.length + 8 + roundUp8 v3.length + 8 + v4.length ≤ i ∧
          i < 8 + 8 + roundUp8 v2.length + 8 + roundUp8 v3.length + 8 + roundUp8 v4.length) ∨
        (8 + 8 + roundUp8 v2.length + 8 + roundUp8 v3.length + 8 + roundUp8 v4.length +
            sizeof_AttendanceType ≤ i ∧
          i < 8 + 8 + roundUp8 v2.length + 8 + roundUp8 v3.length + 8 + roundUp8 v4.length + 8) ∨
        (8 + 8 + roundUp8 v2.length + 8 + roundUp8 v3.length + 8 + roundUp8 v4.length + 8 +
            sizeof_bool ≤ i ∧
          i < 8 + 8 + roundUp8 v2.length + 8 + roundUp8 v3.length + 8 + roundUp8 v4.length + 8 + 8) ∨
        (8 + 8 + roundUp8 v2.length + 8 + roundUp8 v3.length + 8 + roundUp8 v4.length + 8 + 8 + 8 +
            8 + v8.length ≤ i ∧
          i < 8 + 8 + roundUp8 v2.length + 8 + roundUp8 v3.length + 8 + roundUp8 v4.length + 8 + 8 +
            8 + 8 + roundUp8 v8.length))) → agreeOn m m2 lo hi := by
    intro lo hi hhi hnp i h1 h2
    exact ha i (by omega) (hnp i h1 h2)
  have e1' := read_aligned_congr m2 sz2 e1 (by omega) (by omega)
    (ag _ _ (by omega) (fun i h1 h2 => by omega))
  have e2' := read_aligned_str_congr m2 sz2 e2 (by omega) (by omega)
    (ag _ _ (by omega) (fun i h1 h2 => by omega))
  have e3' := read_aligned_str_congr m2 sz2 e3 (by omega) (by omega)
    (ag _ _ (by omega) (fun i h1 h2 => by omega))
  have e4' := read_aligned_str_congr m2 sz2 e4 (by omega) (by omega)
    (ag _ _ (by omega) (fun i h1 h2 => by omega))
  have e5' := read_aligned_congr m2 sz2 e5 (by omega) (by omega)
    (ag _ _ (by omega) (fun i h1 h2 => by omega))
  have e6' := read_aligned_congr m2 sz2 e6 (by omega) (by omega)
    (ag _ _ (by omega) (fun i h1 h2 => by omega))
  have e7' := read_aligned_double_congr m2 sz2 e7 (by omega) (by omega)
    (ag _ _ (by omega) (fun i h1 h2 => by omega))
  have e8' := read_aligned_str_congr m2 sz2 e8 (by omega) (by omega)
    (ag _ _ (by omega) (fun i h1 h2 => by omega))
  unfold Student.fromByteArray.body
  simp only [if_neg hsz, Nat.zero_add, e1', ok_bind, e2', e3', e4', e5', e6', e7', e8']
  simp only at c1 c2 c5 c6
  rw [if_neg c1, if_neg c2, if_neg c5, if_neg c6, if_pos hn]

theorem Student.student_fromByteArray_congr {self self2 r : Student} {m m2 : List Byte} {sz sz2 n : Nat}
    (h : Student.fromByteArray self (some m) sz = .ret n r) (h0 : n ≠ 0)
    (hsz : ¬ toIntPtr sz2 ≤ 0) (hn : n ≤ sz2) (hl : n ≤ m2.length)
    (ha : ∀ i, i < n → ¬ r.isPadding i → m2[i]? = m[i]?) :
    Student.fromByteArray self2 (some m2) sz2 = .ret n r := by
  rcases Student.student_fromByteArray_ret h with ⟨hz, _⟩ | ⟨hb, _, _, _⟩
  · exact absurd hz h0
  · unfold Student.fromByteArray
    rw [Student.student_body_congr hb hsz hn hl ha]

/-- The student loop reads only data bytes: on a span that agrees with the
first one at the non-padding offsets of the students decoded there, and whose
end is the same or any end below `2 ^ 63` that leaves room for them, the loop
decodes the same students. -/
theorem MyClass.loop_congr (m m2 : List Byte) (pEnd pEnd2 : Nat)
    (hcase : pEnd2 = pEnd ∨ pEnd2 < 2 ^ 63) :
    ∀ (count : Nat) (st st2 : Student) (pS : Nat) (acc : List Student) (pS2 : Nat)
      (new : List Student),
      MyClass.fromByteArray.loop m pEnd count st pS acc = .ok (pS2, acc ++ new) → pS ≤ pEnd →
      pS2 ≤ pEnd2 → pS2 ≤ m2.length →
      (∀ i, pS ≤ i → i < pS2 → ¬ studentsIsPadding new (i - pS) → m2[i]? = m[i]?) →
      MyClass.fromByteArray.loop m2 pEnd2 count st2 pS acc = .ok (pS2, acc ++ new) := by
  intro count
  induction count with
  | zero =>
    intro st st2 pS acc pS2 new h _ _ _ _
    rw [MyClass.fromByteArray.loop] at h ⊢
    exact h
  | succ k ih =>
    intro st st2 pS acc pS2 new h hp hE hl ha
    rw [MyClass.fromByteArray.loop] at h
    split at h
    · cases h
    · cases h
    · rename_i szcb st3 hs
      split at h
      · cases h
      · rename_i hne
        rcases Student.student_fromByteArray_ret hs with ⟨h0, _⟩ | ⟨hb, hn, hle, hv⟩
        · exact absurd h0 hne
        · have hpos := Student.student_body_sz_pos hb
          have hq := toSizeT_sub_le hp
          obtain ⟨new2, e1, e2, e3, e4, e5⟩ :=
            MyClass.loop_ok m pEnd k st3 (pS + szcb) (acc ++ [st3]) pS2 _ h (by omega)
          have hnew : new = st3 :: new2 := by
            rw [List.append_assoc] at e1
            exact List.append_cancel_left e1
          subst hnew
          have hge := st3.student_encodedSize_ge
          have hq2 : ¬ toIntPtr (toSizeT ((pEnd2 : Int) - (pS : Int))) ≤ 0 ∧
              szcb ≤ toSizeT ((pEnd2 : Int) - (pS : Int)) := by
            rcases hcase with hc | hc
            · rw [hc]; exact ⟨hpos, hle⟩
            · rw [toSizeT_sub (by omega) (by omega), toIntPtr_of_lt (by omega)]
              omega
          have hs2 : Student.fromByteArray st2 (some (m2.drop pS))
              (toSizeT ((pEnd2 : Int) - (pS : Int))) = .ret szcb st3 := by
            refine Student.student_fromByteArray_congr hs hne hq2.1 hq2.2
              (by rw [List.length_drop]; omega) ?_
            intro i hi hnp
            rw [List.getElem?_drop, List.getElem?_drop]
            refine ha (pS + i) (by omega) (by omega) ?_
            rw [show pS + i - pS = i by omega, studentsIsPadding, if_pos (by omega)]
            exact hnp
          rw [MyClass.fromByteArray.loop, hs2]
          simp only
          rw [if_neg hne]
          have hih := ih st3 st3 (pS + szcb) (acc ++ [st3]) pS2 new2
            (by rw [List.append_assoc]; exact h) (by omega) hE hl (by
              intro i h1 h2 hnp
              refine ha i (by omega) h2 ?_
              rw [studentsIsPadding, if_neg (by omega),
                show i - pS - st3.encodedSize = i - (pS + szcb) by omega]
              exact hnp)
          rw [List.append_assoc] at hih
          exact hih

theorem MyClass.body_sz_pos {self R : MyClass} {pData : Option (List Byte)} {sz n : Nat}
    (h : MyClass.fromByteArray.body self pData sz = .ok (n, R)) : ¬ toIntPtr sz ≤ 0 := by
  unfold MyClass.fromByteArray.body at h
  split at h
  · cases h
  · exact (ite_error_eq_ok h).1

/-- The class decoder reads only the data bytes of the fields it decodes. -/
theorem MyClass.body_congr {self self2 R : MyClass} {m m2 : List Byte} {sz sz2 n : Nat}
    (h : MyClass.fromByteArray.body self (some m) sz = .ok (n, R))
    (hcase : sz2 = sz ∨ sz2 < 2 ^ 63) (hn : n ≤ sz2) (hl : n ≤ m2.length)
    (ha : ∀ i, i < n → ¬ R.isPadding i → m2[i]? = m[i]?) :
    MyClass.fromByteArray.body self2 (some m2) sz2 = .ok (n, R) := by
  have hpos := MyClass.body_sz_pos h
  have hge : 32 ≤ n := by
    have := (MyClass.body_ok h).1
    have := R.encodedSize_ge
    omega
  have hsz : ¬ toIntPtr sz2 ≤ 0 := by
    rcases hcase with hc | hc
    · rw [hc]; exact hpos
    · rw [toIntPtr_of_lt hc]; omega
  unfold MyClass.fromByteArray.body at h
  simp only at h
  obtain ⟨_, h⟩ := ite_error_eq_ok h
  simp only [Nat.zero_add] at h
  obtain ⟨⟨p1, v1⟩, e1, h⟩ := bind_eq_ok h
  obtain ⟨c1, h⟩ := ite_error_eq_ok h
  obtain ⟨⟨p2, v2⟩, e2, h⟩ := bind_eq_ok h
  obtain ⟨c2, h⟩ := ite_error_eq_ok h
  obtain ⟨⟨p3, v3⟩, e3, h⟩ := bind_eq_ok h
  obtain ⟨c3, h⟩ := ite_error_eq_ok h
  obtain ⟨⟨p4, v4⟩, e4, h⟩ := bind_eq_ok h
  obtain ⟨⟨p5, v5⟩, e5, h⟩ := bind_eq_ok h
  obtain ⟨c5, h⟩ := ite_ok_eq_ok h
  cases h
  obtain ⟨a1, b1, r1⟩ := read_aligned_ok e1
  obtain ⟨a2, b2, r2, m2x⟩ := read_aligned_str_ok e2
  obtain ⟨a3, b3, r3⟩ := read_aligned_ok e3
  obtain ⟨new, n1, n2, n3, n4, n5⟩ := MyClass.loop_ok m sz _ _ _ _ _ _ e4 b3
  obtain ⟨a5, b5, r5, m5⟩ := read_aligned_str_ok e5
  rw [aligned_four] at a1
  rw [aligned_eight] at a3
  simp only [List.nil_append] at n1
  subst n1
  simp only at e2 e3 e4 e5 c5 hn hl hge
  have g2 := roundUp8_ge v2.length
  have g5 := roundUp8_ge v5.length
  have k4 : sizeof_int = 4 := rfl
  have k8 : sizeof_size_t = 8 := rfl
  unfold MyClass.isPadding at ha
  simp only at ha
  have ag : ∀ lo hi, hi ≤ p5 → (∀ i, lo ≤ i → i < hi →
      ¬ ((sizeof_int ≤ i ∧ i < 8) ∨
        (8 + 8 + v2.length ≤ i ∧ i < 8 + 8 + roundUp8 v2.length) ∨
        (8 + 8 + roundUp8 v2.length + 8 ≤ i ∧
          i < 8 + 8 + roundUp8 v2.length + 8 + studentsSize v4 ∧
          studentsIsPadding v4 (i - (8 + 8 + roundUp8 v2.length + 8))) ∨
        (8 + 8 + roundUp8 v2.length + 8 + studentsSize v4 + 8 + v5.length ≤ i ∧
          i < 8 + 8 + roundUp8 v2.length + 8 + studentsSize v4 + 8 + roundUp8 v5.length))) →
      agreeOn m m2 lo hi := by
    intro lo hi hhi hnp i h1 h2
    exact ha i (by omega) (hnp i h1 h2)
  have e1' := read_aligned_congr m2 sz2 e1 (by omega) (by omega)
    (ag _ _ (by omega) (fun i h1 h2 => by omega))
  have e2' := read_aligned_str_congr m2 sz2 e2 (by omega) (by omega)
    (ag _ _ (by omega) (fun i h1 h2 => by omega))
  have e3' := read_aligned_congr m2 sz2 e3 (by omega) (by omega)
    (ag _ _ (by omega) (fun i h1 h2 => by omega))
  have e4' := MyClass.loop_congr m m2 sz sz2 hcase v3 {} {} p3 [] p4 v4 e4 b3 (by omega)
    (by omega) (by
      intro i h1 h2 hnp
      refine ha i (by omega) ?_
      subst a3 a2 a1 n4
      intro hpad
      rcases hpad with hp | hp | hp | hp
      · omega
      · omega
      · exact hnp (by
          have := hp.2.2
          rw [show i - (8 + 8 + roundUp8 v2.length + 8) = i - (0 + 8 + 8 + roundUp8 v2.length + 8)
            by omega] at this
          exact this)
      · omega)
  have e5' := read_aligned_str_congr m2 sz2 e5 (by omega) (by omega)
    (ag _ _ (by omega) (fun i h1 h2 => by omega))
  unfold MyClass.fromByteArray.body
  simp only [if_neg hsz, Nat.zero_add, e1', ok_bind, e2', e3']
  simp only at c1 c2 c3
  rw [if_neg c1, if_neg c2, if_neg c3]
  simp only [List.nil_append] at e4'
  simp only [e4', ok_bind, e5']
  rw [if_pos hn]

theorem MyClass.fromByteArray_congr {self self2 R : MyClass} {m m2 : List Byte} {sz sz2 n : Nat}
    (h : MyClass.fromByteArray self (some m) sz = .ret n R) (h0 : n ≠ 0)
    (hcase : sz2 = sz ∨ sz2 < 2 ^ 63) (hn : n ≤ sz2) (hl : n ≤ m2.length)
    (ha : ∀ i, i < n → ¬ R.isPadding i → m2[i]? = m[i]?) :
    MyClass.fromByteArray self2 (some m2) sz2 = .ret n R := by
  rcases MyClass.fromByteArray_ret h with ⟨hz, _⟩ | ⟨hb, _, _, _⟩
  · exact absurd hz h0
  · unfold MyClass.fromByteArray
    rw [MyClass.body_congr hb hcase hn hl ha]

theorem MyClass.loopSteps_le (mem : List Byte) (pEnd : Nat) :
    ∀ (count : Nat) (st : Student) (pS : Nat), pS ≤ pEnd →
      MyClass.fromByteArray.loopSteps mem pEnd count st pS ≤ (pEnd - pS) / 64 + 1 ∧
      MyClass.fromByteArray.loopSteps mem pEnd count st pS ≤ count := by
  intro count
  induction count with
  | zero =>
    intro st pS _
    rw [MyClass.fromByteArray.loopSteps]
    omega
  | succ k ih =>
    intro st pS hp
    rw [MyClass.fromByteArray.loopSteps]
    split
    · omega
    · omega
    · rename_i szcb st2 hs
      split
      · omega
      · rename_i hne
        rcases Student.student_fromByteArray_ret hs with ⟨h0, _⟩ | ⟨_, hn, hle, _⟩
        · exact absurd h0 hne
        · have hq := toSizeT_sub_le hp
          have hge := st2.student_encodedSize_ge
          obtain ⟨i1, i2⟩ := ih st2 (pS + szcb) (by omega)
          omega

/-- The loop and its iteration count run together: a loop that succeeds has
performed exactly `count` iterations. -/
theorem MyClass.loopSteps_of_ok (mem : List Byte) (pEnd : Nat) :
    ∀ (count : Nat) (st : Student) (pS : Nat) (acc : List Student) (r : Nat × List Student),
      MyClass.fromByteArray.loop mem pEnd count st pS acc = .ok r →
      MyClass.fromByteArray.loopSteps mem pEnd count st pS = count := by
  intro count
  induction count with
  | zero =>
    intro st pS acc r _
    rw [MyClass.fromByteArray.loopSteps]
  | succ k ih =>
    intro st pS acc r h
    rw [MyClass.fromByteArray.loop] at h
    split at h
    · cases h
    · cases h
    · rename_i szcb st2 hs
      rw [MyClass.fromByteArray.loopSteps, hs]
      simp only
      split at h
      · cases h
      · rename_i hne
        rw [if_neg hne, ih st2 (pS + szcb) _ r h]
        omega

/-- What a successful class decode tells about the count field. -/
theorem MyClass.body_count {self R : MyClass} {mem : List Byte} {sz n : Nat}
    (h : MyClass.fromByteArray.body self (some mem) sz = .ok (n, R)) :
    R.students.length = MyClass.countField mem ∧ R.students.length < 2 ^ 63 ∧
      64 * R.students.length ≤ n := by
  have hsize := (MyClass.body_ok h).1
  have hcnt := studentsSize_ge R.students
  unfold MyClass.fromByteArray.body at h
  simp only at h
  obtain ⟨_, h⟩ := ite_error_eq_ok h
  simp only [Nat.zero_add] at h
  obtain ⟨⟨p1, v1⟩, e1, h⟩ := bind_eq_ok h
  obtain ⟨c1, h⟩ := ite_error_eq_ok h
  obtain ⟨⟨p2, v2⟩, e2, h⟩ := bind_eq_ok h
  obtain ⟨c2, h⟩ := ite_error_eq_ok h
  obtain ⟨⟨p3, v3⟩, e3, h⟩ := bind_eq_ok h
  obtain ⟨c3, h⟩ := ite_error_eq_ok h
  obtain ⟨⟨p4, v4⟩, e4, h⟩ := bind_eq_ok h
  obtain ⟨⟨p5, v5⟩, e5, h⟩ := bind_eq_ok h
  obtain ⟨c5, h⟩ := ite_ok_eq_ok h
  cases h
  simp only at e2 e3 e4 e5 c3 hsize hcnt ⊢
  obtain ⟨a1, b1, r1⟩ := read_aligned_ok e1
  obtain ⟨a2, b2, r2, m2x⟩ := read_aligned_str_ok e2
  obtain ⟨l1, l2, l3⟩ := read_aligned_str_load e2
  obtain ⟨a3, b3, r3⟩ := read_aligned_ok e3
  obtain ⟨k1, k2, k3⟩ := read_aligned_load e3
  obtain ⟨new, n1, n2, n3, n4, n5⟩ := MyClass.loop_ok mem sz _ _ _ _ _ _ e4 b3
  rw [aligned_four] at a1
  simp only [List.nil_append] at n1
  subst n1
  have hv3 : v3 < 2 ^ 64 := by simpa using r3
  have hv3b : v3 < 2 ^ 63 := by
    rw [toIntPtr_neg_iff, Nat.mod_eq_of_lt hv3] at c3
    omega
  have a1' : p1 = 8 := by omega
  subst a1'
  have hcf : MyClass.countField mem = v3 := by
    unfold MyClass.countField
    simp only
    rw [k3, a2, ← l2, Nat.mul_one, Nat.mod_eq_of_lt (show v2.length < 2 ^ 64 by omega),
      aligned_eq_roundUp8 (by omega)]
  unfold MyClass.encodedSize at hsize
  simp only at hsize
  rw [hcf, n2]
  exact ⟨rfl, hv3b, by omega⟩

/-- C19. Padding is not interpreted: if a byte sequence decodes successfully
and a second sequence of the same length holds the same bytes at every offset
that is not a padding offset of the decoded record's layout, then the second
one decodes successfully as well, to the same record with the same number of
bytes consumed. The same holds for `Student::fromByteArray`. -/
theorem padding_not_interpreted :
    (∀ (self self2 R : MyClass) (B B2 : List Byte) (n : Nat),
      MyClass.fromByteArray self (some B) B.length = .ret n R → n ≠ 0 →
      B2.length = B.length → (∀ i, i < B.length → ¬ R.isPadding i → B2[i]? = B[i]?) →
      MyClass.fromByteArray self2 (some B2) B2.length = .ret n R) ∧
    (∀ (self self2 r : Student) (B B2 : List Byte) (n : Nat),
      Student.fromByteArray self (some B) B.length = .ret n r → n ≠ 0 →
      B2.length = B.length → (∀ i, i < B.length → ¬ r.isPadding i → B2[i]? = B[i]?) →
      Student.fromByteArray self2 (some B2) B2.length = .ret n r) := by
  constructor
  · intro self self2 R B B2 n h h0 hlen ha
    have hle : n ≤ B.length := by
      rcases MyClass.fromByteArray_ret h with ⟨hz, _⟩ | ⟨_, _, hle, _⟩
      · exact absurd hz h0
      · exact hle
    rw [hlen]
    exact MyClass.fromByteArray_congr h h0 (Or.inl rfl) hle (by omega)
      (fun i hi hnp => ha i (by omega) hnp)
  · intro self self2 r B B2 n h h0 hlen ha
    rcases Student.student_fromByteArray_ret h with ⟨hz, _⟩ | ⟨hb, _, hle, _⟩
    · exact absurd hz h0
    · rw [hlen]
      exact Student.student_fromByteArray_congr h h0 (Student.student_body_sz_pos hb) hle (by omega)
        (fun i hi hnp => ha i (by omega) hnp)

theorem padding_not_interpreted_witness :
    MyClass.fromByteArray {} (some (scenarioClass.wire.set 4 255))
        (scenarioClass.wire.set 4 255).length = .ret 136 scenarioClass ∧
    Student.fromByteArray {} (some (scenarioStudent.wire.set 7 255))
        (scenarioStudent.wire.set 7 255).length = .ret 80 scenarioStudent :=
  ⟨padding_not_interpreted.1 {} {} scenarioClass scenarioClass.wire (scenarioClass.wire.set 4 255)
      136 (by decide) (by decide) (by decide) (fun i _ hnp => by
        rw [List.getElem?_set_ne]
        intro h4
        subst h4
        exact hnp (Or.inl ⟨by decide, by decide⟩)),
    padding_not_interpreted.2 {} {} scenarioStudent scenarioStudent.wire
      (scenarioStudent.wire.set 7 255) 80 (by decide) (by decide) (by decide) (fun i _ hnp => by
        rw [List.getElem?_set_ne]
        intro h7
        subst h7
        exact hnp (Or.inl ⟨by decide, by decide⟩))⟩

/-- C20. The array count is bounded by the input: after a successful decode of
a byte sequence of length `L` the students list has exactly as many elements as
the count field holds, and at most `L / 64`; hence an input whose count field
exceeds `L / 64`, or has its top bit set, does not decode successfully; and on
any input the student loop performs at most `L / 64 + 1` iterations. -/
theorem student_count_bounded :
    (∀ (self R : MyClass) (data : List Byte) (n : Nat),
      MyClass.fromByteArray self (some data) data.length = .ret n R → n ≠ 0 →
      R.students.length = MyClass.countField data ∧ R.students.length ≤ data.length / 64) ∧
    (∀ (self R : MyClass) (data : List Byte) (n : Nat),
      data.length / 64 < MyClass.countField data ∨ 2 ^ 63 ≤ MyClass.countField data →
      MyClass.fromByteArray self (some data) data.length = .ret n R → n = 0) ∧
    (∀ (data : List Byte) (count : Nat) (st : Student) (pS : Nat), pS ≤ data.length →
      MyClass.fromByteArray.loopSteps data data.length count st pS ≤ data.length / 64 + 1) := by
  refine ⟨?_, ?_, ?_⟩
  · intro self R data n h h0
    rcases MyClass.fromByteArray_ret h with ⟨hz, _⟩ | ⟨hb, _, hle, _⟩
    · exact absurd hz h0
    · obtain ⟨c1, c2, c3⟩ := MyClass.body_count hb
      exact ⟨c1, by omega⟩
  · intro self R data n hbig h
    rcases MyClass.fromByteArray_ret h with ⟨hz, _⟩ | ⟨hb, _, hle, _⟩
    · exact hz
    · obtain ⟨c1, c2, c3⟩ := MyClass.body_count hb
      omega
  · intro data count st pS hp
    have := (MyClass.loopSteps_le data data.length count st pS hp).1
    have h2 : (data.length - pS) / 64 ≤ data.length / 64 := Nat.div_le_div_right (by omega)
    omega

theorem student_count_bounded_witness :
    (scenarioClass.students.length = MyClass.countField scenarioClass.wire ∧
      scenarioClass.students.length ≤ scenarioClass.wire.length / 64) ∧
    MyClass.fromByteArray.loopSteps scenarioClass.wire scenarioClass.wire.length 5 {} 32 ≤
      scenarioClass.wire.length / 64 + 1 ∧
    (scenarioClass.wire.set 32 3).length / 64 < MyClass.countField (scenarioClass.wire.set 32 3) ∧
    MyClass.fromByteArray {} (some (scenarioClass.wire.set 32 3))
        (scenarioClass.wire.set 32 3).length = .ret 0 {} ∧ (0 : Nat) = 0 :=
  ⟨student_count_bounded.1 {} scenarioClass scenarioClass.wire 136 (by decide) (by decide),
    student_count_bounded.2.2 scenarioClass.wire 5 {} 32 (by decide),
    by decide, by decide,
    student_count_bounded.2.1 {} {} (scenarioClass.wire.set 32 3) 0 (Or.inl (by decide))
      (by decide)⟩

/-! ## Encode frame, extension of the input, re-encoding -/

theorem getElem?_wire_append (W tail buf : List Byte) (n i : Nat) (hW : W.length = n)
    (ht : tail = buf.drop n) (hi : n ≤ i) : (W ++ tail)[i]? = buf[i]? := by
  rw [List.getElem?_append_right (by omega), ht, List.getElem?_drop, hW]
  congr 1
  omega

/-- The student loop of fill mode touches only the bytes of the students it
writes: everything before the write pointer and everything after the last
student keeps its value. -/
theorem MyClass.fill_loop_frame (pEnd : Nat) (hE : pEnd < 2 ^ 63) :
    ∀ (l : List Student) (buf : List Byte) (pD : Nat), pD + studentsSize l ≤ pEnd →
      pEnd ≤ buf.length →
      ∃ out, MyClass.toByteArray.loop pEnd l buf pD = .ok (out, pD + studentsSize l) ∧
        out.length = buf.length ∧ out.take pD = buf.take pD ∧
        out.drop (pD + studentsSize l) = buf.drop (pD + studentsSize l) := by
  intro l
  induction l with
  | nil =>
    intro buf pD _ _
    exact ⟨buf, by simp [MyClass.toByteArray.loop, studentsSize], rfl, rfl, rfl⟩
  | cons a l ih =>
    intro buf pD hp hb
    simp only [studentsSize] at hp
    have ha : a.inMemory := by unfold Student.inMemory; omega
    have hge := a.student_encodedSize_ge
    have hw := a.student_wire_length ha
    have hfill := a.student_toByteArray_fill (buf.drop pD) (toSizeT ((pEnd : Int) - (pD : Int))) ha
      (by rw [toSizeT_sub (by omega) (by omega)]; omega)
      (by rw [List.length_drop]; omega)
    have hlen1 : (buf.take pD ++ (a.wire ++ (buf.drop pD).drop a.encodedSize)).length =
        buf.length := by
      simp only [List.length_append, List.length_take, List.length_drop, hw]
      omega
    obtain ⟨out, h1, h2, h3, h4⟩ := ih (buf.take pD ++ (a.wire ++ (buf.drop pD).drop a.encodedSize))
      (pD + a.encodedSize) (by omega) (by omega)
    refine ⟨out, ?_, ?_, ?_, ?_⟩
    · rw [MyClass.toByteArray.loop, hfill]
      simp only [Option.getD_some]
      rw [if_neg (by omega), h1]
      simp only [studentsSize, Nat.add_assoc]
    · rw [h2, hlen1]
    · have htk : (buf.take pD).length = pD := by
        rw [List.length_take]; omega
      have := congrArg (List.take pD) h3
      rw [List.take_take, List.take_take, Nat.min_eq_left (by omega)] at this
      rw [this, List.take_append_of_le_length (by omega), List.take_take, Nat.min_self]
    · have hpre : (buf.take pD ++ a.wire).length = pD + a.encodedSize := by
        rw [List.length_append, List.length_take, hw]; omega
      simp only [studentsSize]
      rw [← Nat.add_assoc, h4, ← List.append_assoc, ← hpre, List.drop_append, List.drop_drop,
        List.drop_drop, hpre]
      congr 1
      omega

theorem Student.student_encodedSize_mod (s : Student) : s.encodedSize % 8 = 0 := by
  have h1 := roundUp8_mod s.strGivenName.length
  have h2 := roundUp8_mod s.strSecondName.length
  have h3 := roundUp8_mod s.strThirdName.length
  have h4 := roundUp8_mod s.strNotes.length
  unfold Student.encodedSize
  omega

theorem studentsSize_mod (l : List Student) : studentsSize l % 8 = 0 := by
  induction l with
  | nil => rfl
  | cons a l ih =>
    have := a.student_encodedSize_mod
    simp only [studentsSize]
    omega

theorem MyClass.encodedSize_mod (R : MyClass) : R.encodedSize % 8 = 0 := by
  have h1 := roundUp8_mod R.strName.length
  have h2 := roundUp8_mod R.strNotes.length
  have h3 := studentsSize_mod R.students
  unfold MyClass.encodedSize
  omega

theorem agree_of_take {B B2 : List Byte} {n : Nat} (h : B2.take n = B.take n) :
    ∀ i, i < n → B2[i]? = B[i]? := by
  intro i hi
  have := congrArg (fun l => l[i]?) h
  simp only [List.getElem?_take, if_pos hi] at this
  exact this


/-- C21. Encode frame: fill mode into a buffer of size at least `n`, the value
of the size query, returns a buffer of the same length in which every byte at
an offset `≥ n` has its previous value; the same holds for
`Student::toByteArray`; and the nested student fills leave every byte before
the write pointer, so the bytes of earlier fields, and every byte after the
last student unchanged. -/
theorem encode_frame :
    (∀ (R : MyClass) (buf : List Byte) (size n : Nat), R.inMemory →
      R.toByteArray none 0 = .ret n none → n ≤ size → size ≤ buf.length →
      ∃ E, R.toByteArray (some buf) size = .ret n (some E) ∧ E.length = buf.length ∧
        ∀ i, n ≤ i → E[i]? = buf[i]?) ∧
    (∀ (s : Student) (buf : List Byte) (size n : Nat), s.inMemory →
      s.toByteArray none 0 = .ret n none → n ≤ size → size ≤ buf.length →
      ∃ E, s.toByteArray (some buf) size = .ret n (some E) ∧ E.length = buf.length ∧
        ∀ i, n ≤ i → E[i]? = buf[i]?) ∧
    (∀ (l : List Student) (buf : List Byte) (pD pEnd : Nat), pEnd < 2 ^ 63 →
      pD + studentsSize l ≤ pEnd → pEnd ≤ buf.length →
      ∃ out, MyClass.toByteArray.loop pEnd l buf pD = .ok (out, pD + studentsSize l) ∧
        out.length = buf.length ∧ out.take pD = buf.take pD ∧
        out.drop (pD + studentsSize l) = buf.drop (pD + studentsSize l)) := by
  refine ⟨?_, ?_, ?_⟩
  · intro R buf size n hmem hq hs hb
    have hn := query_eq_encodedSize hmem hq
    subst hn
    have hw := R.wire_length hmem
    refine ⟨_, R.toByteArray_fill buf size hmem hs (by omega), ?_, ?_⟩
    · rw [List.length_append, List.length_drop, hw]; omega
    · intro i hi
      exact getElem?_wire_append _ _ buf _ i hw rfl hi
  · intro s buf size n hmem hq hs hb
    have hn := Student.student_query_eq_encodedSize hmem hq
    subst hn
    have hw := s.student_wire_length hmem
    refine ⟨_, s.student_toByteArray_fill buf size hmem hs (by omega), ?_, ?_⟩
    · rw [List.length_append, List.length_drop, hw]; omega
    · intro i hi
      exact getElem?_wire_append _ _ buf _ i hw rfl hi
  · intro l buf pD pEnd hE hp hb
    exact MyClass.fill_loop_frame pEnd hE l buf pD hp hb

theorem encode_frame_witness :
    (∃ E, scenarioClass.toByteArray (some (List.replicate 200 7)) 150 = .ret 136 (some E) ∧
      E.length = (List.replicate 200 (7 : Byte)).length ∧
      ∀ i, 136 ≤ i → E[i]? = (List.replicate 200 (7 : Byte))[i]?) ∧
    (∃ E, scenarioStudent.toByteArray (some (List.replicate 100 7)) 80 = .ret 80 (some E) ∧
      E.length = (List.replicate 100 (7 : Byte)).length ∧
      ∀ i, 80 ≤ i → E[i]? = (List.replicate 100 (7 : Byte))[i]?) ∧
    (∃ out, MyClass.toByteArray.loop 136 [scenarioStudent] (List.replicate 136 7) 40 =
        .ok (out, 40 + studentsSize [scenarioStudent]) ∧
      out.length = (List.replicate 136 (7 : Byte)).length ∧
      out.take 40 = (List.replicate 136 (7 : Byte)).take 40 ∧
      out.drop (40 + studentsSize [scenarioStudent]) =
        (List.replicate 136 (7 : Byte)).drop (40 + studentsSize [scenarioStudent])) :=
  ⟨encode_frame.1 scenarioClass (List.replicate 200 7) 150 136 (by decide) (by decide) (by decide)
      (by decide),
    encode_frame.2.1 scenarioStudent (List.replicate 100 7) 80 80 (by decide) (by decide)
      (by decide) (by decide),
    encode_frame.2.2 [scenarioStudent] (List.replicate 136 7) 40 136 (by decide) (by decide)
      (by decide)⟩

/-- C22. Extension invariance: if decoding `B` succeeds consuming `n` bytes and
`B2` is a span of at least `n` bytes (a span of the process, so shorter than
`2 ^ 63` bytes) with the same first `n` bytes, then decoding `B2` succeeds as
well, returns `n` and yields the same record. The same holds for
`Student::fromByteArray`. -/
theorem extension_invariance :
    (∀ (self self2 R : MyClass) (B B2 : List Byte) (n : Nat),
      MyClass.fromByteArray self (some B) B.length = .ret n R → n ≠ 0 →
      n ≤ B2.length → B2.length < 2 ^ 63 → B2.take n = B.take n →
      MyClass.fromByteArray self2 (some B2) B2.length = .ret n R) ∧
    (∀ (self self2 r : Student) (B B2 : List Byte) (n : Nat),
      Student.fromByteArray self (some B) B.length = .ret n r → n ≠ 0 →
      n ≤ B2.length → B2.length < 2 ^ 63 → B2.take n = B.take n →
      Student.fromByteArray self2 (some B2) B2.length = .ret n r) := by
  constructor
  · intro self self2 R B B2 n h h0 hn hlt ht
    exact MyClass.fromByteArray_congr h h0 (Or.inr hlt) hn hn
      (fun i hi _ => agree_of_take ht i hi)
  · intro self self2 r B B2 n h h0 hn hlt ht
    exact Student.student_fromByteArray_congr h h0
      (by rw [toIntPtr_of_lt hlt]; omega) hn hn (fun i hi _ => agree_of_take ht i hi)

theorem extension_invariance_witness :
    MyClass.fromByteArray {} (some (scenarioClass.wire ++ [1, 2, 3]))
        (scenarioClass.wire ++ [1, 2, 3]).length = .ret 136 scenarioClass ∧
    Student.fromByteArray {} (some (scenarioStudent.wire ++ scenarioClass.wire))
        (scenarioStudent.wire ++ scenarioClass.wire).length = .ret 80 scenarioStudent :=
  ⟨extension_invariance.1 {} {} scenarioClass scenarioClass.wire (scenarioClass.wire ++ [1, 2, 3])
      136 (by decide) (by decide) (by decide) (by decide) (by decide),
    extension_invariance.2 {} {} scenarioStudent scenarioStudent.wire
      (scenarioStudent.wire ++ scenarioClass.wire) 80 (by decide) (by decide) (by decide)
      (by decide) (by decide)⟩

/-- C23. Re-encode length equals bytes consumed: when `MyClass::fromByteArray`
succeeds on a byte sequence (whose length is a `size_t`) and returns `n`, the
size query of the decoded record returns `n`, and `n` is a multiple of 8. -/
theorem reencode_length_eq_consumed (self R : MyClass) (data : List Byte) (n : Nat)
    (hlen : data.length < 2 ^ 64)
    (h : MyClass.fromByteArray self (some data) data.length = .ret n R) (h0 : n ≠ 0) :
    R.toByteArray none 0 = .ret n none ∧ n % ALIGN_BY = 0 := by
  rcases MyClass.fromByteArray_ret h with ⟨hz, _⟩ | ⟨hb, hn, hle, _⟩
  · exact absurd hz h0
  · have hpos := MyClass.body_sz_pos hb
    have hlt : data.length < 2 ^ 63 := by
      have := (toIntPtr_pos_iff data.length).mp (by omega)
      rw [Nat.mod_eq_of_lt hlen] at this
      exact this.2
    have hmem : R.inMemory := by unfold MyClass.inMemory; omega
    have hm := R.encodedSize_mod
    refine ⟨?_, ?_⟩
    · rw [R.toByteArray_query, R.szcbData_eq hmem, hn]
    · unfold ALIGN_BY; omega

theorem reencode_length_eq_consumed_witness :
    scenarioClass.wire.length < 2 ^ 64 ∧
    scenarioClass.toByteArray none 0 = .ret 136 none ∧ 136 % ALIGN_BY = 0 :=
  ⟨by decide, reencode_length_eq_consumed {} scenarioClass scenarioClass.wire 136 (by decide)
    (by decide) (by decide)⟩

end BinSerialize
